import Mathlib

/-!
# HaoCache: the LRU cache of `algorithm/lru.go`

A shallow embedding of the Go type `Cache` and of its methods `New`, `Get`,
`RemoveOldest`, `Remove`, `Set` and `Len`, followed by theorems about them.

Modelling conventions.

* `int64` values are integers (`Int`); every `int64` addition, subtraction and
  multiplication of the source is followed by `wrap64`, the two's complement
  reduction to the range `[-2^63, 2^63)`.
* A `*list.Element` is an `Element` carrying its address `addr`; the recency
  list `ll` is the list of its elements from front to back, and the map
  `cache` sends a key to the address of an element.  `PushFront` takes the
  address `nextAddr`, which is then advanced, so a new element never reuses
  the address of an older one.
* A `Value` is a payload together with the integer its method `Len` returns
  (the same integer at every call).
* `threshold` is a `float64` in the source; its finite values are rational
  numbers, and `int64(threshold)` discards the fraction.  Go leaves the
  conversion of a value outside the `int64` range to the implementation; no
  statement below depends on it.
* `OnEvicted` is either absent or present; the calls made to it are recorded,
  in order, in `evictedCalls`.  The callback itself does not touch the cache.
* The `for` loop of `Set` is run with a bound on the number of iterations:
  `Set` yields `none` when the loop is still running after `fuel` iterations.
* `haolog.Error` only writes a log line and is left out.
-/

namespace algorithm

/-- Two's complement reduction of an integer to the `int64` range. -/
def wrap64 (x : Int) : Int :=
  (x + 9223372036854775808) % 18446744073709551616 - 9223372036854775808

/-- The Go interface `Value`: a payload and the result of its `Len()` method. -/
structure Value where
  payload : Nat
  Len : Int
deriving DecidableEq, Repr

/-- The Go struct `entry` (its field `expireTime` is never read nor written). -/
structure entry where
  key : String
  value : Value
deriving DecidableEq, Repr

/-- A `*list.Element` of `container/list`: its address and the entry it holds. -/
structure Element where
  addr : Nat
  Value : entry
deriving DecidableEq, Repr

/-- The Go struct `Cache`. -/
structure Cache where
  maxBytes : Int
  nbbytes : Int
  threshold : Rat
  ll : List Element
  cache : List (String × Nat)
  OnEvicted : Bool
  evictedCalls : List (String × Value)
  nextAddr : Nat
deriving DecidableEq

/-- Go `len(key)`: the number of bytes of the string. -/
def keyLen (key : String) : Int := (key.utf8ByteSize : Int)

/-- Go `int64(f)` for a finite `float64`: the fraction is discarded. -/
def int64OfFloat (f : Rat) : Int := Int.tdiv f.num (f.den : Int)

/-- Map lookup `m[key]`. -/
def mapGet : List (String × Nat) → String → Option Nat
  | [], _ => none
  | (k, a) :: m, key => if k = key then some a else mapGet m key

/-- Map deletion `delete(m, key)`. -/
def mapDelete (m : List (String × Nat)) (key : String) : List (String × Nat) :=
  m.filter (fun p => decide (p.1 ≠ key))

/-- Map assignment `m[key] = a`. -/
def mapSet (m : List (String × Nat)) (key : String) (a : Nat) : List (String × Nat) :=
  (key, a) :: mapDelete m key

/-- The element of the list at address `a`, when there is one. -/
def findElement (l : List Element) (a : Nat) : Option Element :=
  l.find? (fun e => decide (e.addr = a))

/-- `l.Remove(e)` of `container/list`, `e` being the element at address `a`. -/
def listRemove (l : List Element) (a : Nat) : List Element :=
  l.filter (fun e => decide (e.addr ≠ a))

/-- `l.MoveToFront(e)` of `container/list`, `e` being the element at address
`a`; nothing happens when `e` is not an element of `l`. -/
def MoveToFront (l : List Element) (a : Nat) : List Element :=
  match findElement l a with
  | some e => e :: listRemove l a
  | none => l

/-- The assignment `kv.value = value` through the entry pointer of the element
at address `a`. -/
def setValue (l : List Element) (a : Nat) (value : Value) : List Element :=
  l.map (fun e => if e.addr = a then { e with Value := { e.Value with value := value } } else e)

/-- `c.cache[key]` followed by the dereference of the element pointer.  The map
of a cache built by `New` and its methods only holds addresses of elements of
`ll` (theorem `reachable_wf`); an address that is not in `ll` is read as an
absent key. -/
def Cache.lookup (c : Cache) (key : String) : Option Element :=
  match mapGet c.cache key with
  | some a => findElement c.ll a
  | none => none

/-- Go `New`. -/
def New (maxBytes : Int) (threshold : Rat) (onEvicted : Bool) : Cache :=
  { maxBytes := maxBytes
    nbbytes := 0
    threshold := threshold
    ll := []
    cache := []
    OnEvicted := onEvicted
    evictedCalls := []
    nextAddr := 0 }

/-- Go `(*Cache).Get`: the cache after the call, the value and the flag `ok`. -/
def Cache.Get (c : Cache) (key : String) : Cache × Option Value × Bool :=
  match c.lookup key with
  | some ele => ({ c with ll := MoveToFront c.ll ele.addr }, some ele.Value.value, true)
  | none => (c, none, false)

/-- The body shared by `RemoveOldest` and `Remove` once the element is known:
unlink it, delete its key from the map, give its bytes back, call `OnEvicted`. -/
def Cache.evict (c : Cache) (ele : Element) : Cache :=
  { c with
    ll := listRemove c.ll ele.addr
    cache := mapDelete c.cache ele.Value.key
    nbbytes := wrap64 (c.nbbytes - wrap64 (keyLen ele.Value.key + wrap64 ele.Value.value.Len))
    evictedCalls :=
      if c.OnEvicted then c.evictedCalls ++ [(ele.Value.key, ele.Value.value)]
      else c.evictedCalls }

/-- Go `(*Cache).RemoveOldest`. -/
def Cache.RemoveOldest (c : Cache) : Cache :=
  match c.ll.getLast? with
  | some ele => c.evict ele
  | none => c

/-- Go `(*Cache).Remove`: the cache after the call and the result `ok`. -/
def Cache.Remove (c : Cache) (key : String) : Cache × Bool :=
  match c.lookup key with
  | none => (c, true)
  | some ele => (c.evict ele, true)

/-- Lines 95 to 119 of `Set`: the update or the insertion with its capacity
check.  The flag is `false` when the function returns `false` there. -/
def Cache.store (c : Cache) (key : String) (value : Value) : Cache × Bool :=
  match c.lookup key with
  | some ele =>
    let c1 := { c with
      nbbytes := wrap64 (c.nbbytes + wrap64 (wrap64 value.Len - wrap64 ele.Value.value.Len)) }
    if c1.maxBytes ≠ 0 ∧ c1.nbbytes ≥ c1.maxBytes then (c1, false)
    else ({ c1 with ll := setValue (MoveToFront c1.ll ele.addr) ele.addr value }, true)
  | none =>
    let c1 := { c with nbbytes := wrap64 (c.nbbytes + wrap64 (wrap64 value.Len + keyLen key)) }
    if c1.maxBytes ≠ 0 ∧ c1.nbbytes ≥ c1.maxBytes then (c1, false)
    else
      ({ c1 with
         ll := { addr := c1.nextAddr, Value := { key := key, value := value } } :: c1.ll
         cache := mapSet c1.cache key c1.nextAddr
         nextAddr := c1.nextAddr + 1 }, true)

/-- Line 121 of `Set`: `thresholdValue := c.nbbytes * int64(c.threshold)`. -/
def Cache.thresholdValue (c : Cache) : Int :=
  wrap64 (c.nbbytes * int64OfFloat c.threshold)

/-- Lines 122 to 124 of `Set`: the loop
`for c.maxBytes != 0 && c.maxBytes < thresholdValue { c.RemoveOldest() }`,
run for at most `fuel` iterations. -/
def evictLoop (thresholdValue : Int) : Nat → Cache → Option Cache
  | fuel, c =>
    if c.maxBytes ≠ 0 ∧ c.maxBytes < thresholdValue then
      match fuel with
      | 0 => none
      | n + 1 => evictLoop thresholdValue n c.RemoveOldest
    else some c

/-- Go `(*Cache).Set`: the cache after the call and the result `ok`, or `none`
when the loop has not finished after `fuel` iterations. -/
def Cache.Set (c : Cache) (fuel : Nat) (key : String) (value : Value) : Option (Cache × Bool) :=
  match c.store key value with
  | (c1, false) => some (c1, false)
  | (c2, true) =>
    match evictLoop c2.thresholdValue fuel c2 with
    | some c3 => some (c3, true)
    | none => none

/-- Go `(*Cache).Len`. -/
def Cache.Len (c : Cache) : Nat := c.ll.length

/-- The keys of the entries of the recency list, front first. -/
def Cache.keys (c : Cache) : List String := c.ll.map (fun e => e.Value.key)

/-- The true footprint of a recency list: the sum of `len(key) + value.Len()`
over its entries. -/
def trueBytes (l : List Element) : Int :=
  (l.map (fun e => keyLen e.Value.key + e.Value.value.Len)).sum

/-- The representation invariant of a cache: the elements of the recency list
have pairwise different addresses and pairwise different keys, the map has
one binding for each of its keys, every binding of the map is the key and the
address of an element of the list, every element of the list is bound in the
map, and every address in use is below `nextAddr`. -/
def Cache.wf (c : Cache) : Prop :=
  (c.ll.map (fun e => e.addr)).Nodup ∧
  (c.ll.map (fun e => e.Value.key)).Nodup ∧
  (c.cache.map Prod.fst).Nodup ∧
  (∀ p ∈ c.cache, ∃ e ∈ c.ll, e.addr = p.2 ∧ e.Value.key = p.1) ∧
  (∀ e ∈ c.ll, (e.Value.key, e.addr) ∈ c.cache) ∧
  (∀ e ∈ c.ll, e.addr < c.nextAddr)

instance (c : Cache) : Decidable c.wf := by
  unfold Cache.wf
  infer_instance

/-- The byte delta of a `Set` call as the specification words it:
`value.Len() - old.Len()` for an existing key, `len(key) + value.Len()` for a
new one. -/
def delta (c : Cache) (key : String) (value : Value) : Int :=
  match c.lookup key with
  | some ele => value.Len - ele.Value.value.Len
  | none => keyLen key + value.Len

/-- A call of one of the four state-changing methods. -/
inductive Op where
  | Get (key : String)
  | Set (key : String) (value : Value)
  | Remove (key : String)
  | RemoveOldest
deriving DecidableEq

/-- The cache after one call, or `none` when the call does not return within
`fuel` iterations of the loop of `Set`. -/
def Cache.step (c : Cache) (fuel : Nat) : Op → Option Cache
  | .Get key => some (c.Get key).1
  | .Set key value =>
    match c.Set fuel key value with
    | some (c1, _) => some c1
    | none => none
  | .Remove key => some (c.Remove key).1
  | .RemoveOldest => some c.RemoveOldest

/-- The states a client can reach: those of `New`, and those left by a call
that returns in a state already reached. -/
inductive Reachable : Cache → Prop where
  | new (maxBytes : Int) (threshold : Rat) (onEvicted : Bool) :
      Reachable (New maxBytes threshold onEvicted)
  | step (c c1 : Cache) (fuel : Nat) (op : Op) :
      Reachable c → c.step fuel op = some c1 → Reachable c1

/-- A sequence of `Set` calls: the final cache and the keys of the calls that
returned `true`, or `none` when one of the calls does not return. -/
def Cache.runSets (fuel : Nat) : Cache → List (String × Value) → Option (Cache × List String)
  | c, [] => some (c, [])
  | c, (key, value) :: rest =>
    match c.Set fuel key value with
    | none => none
    | some (c1, ok) =>
      match Cache.runSets fuel c1 rest with
      | none => none
      | some (c2, acc) => some (c2, if ok then key :: acc else acc)

/-- Whether the call names the key `k`: a `Get` or a `Set` of `k`. -/
def Op.names (k : String) : Op → Bool
  | .Get key => decide (key = k)
  | .Set key _ => decide (key = k)
  | .Remove _ => false
  | .RemoveOldest => false

/-- The position (counted from `t`) of the last call of the sequence that names
`k`, or `seen` when no call does. -/
def lastCall (k : String) : Nat → Nat → List Op → Nat
  | _, seen, [] => seen
  | t, seen, op :: ops => lastCall k (t + 1) (if op.names k then t else seen) ops

/-- Whether the call, made in state `c`, is a `Get` of `k` or a `Set` of `k`
that returns `true`. -/
def Cache.accesses (c : Cache) (fuel : Nat) (k : String) : Op → Bool
  | .Get key => decide (key = k)
  | .Set key value =>
    decide (key = k) &&
      (match c.Set fuel key value with
       | some (_, ok) => ok
       | none => false)
  | .Remove _ => false
  | .RemoveOldest => false

/-- The time of the last call of the sequence, run from state `c` at time `t`,
that is a `Get` of `k` or a `Set` of `k` returning `true`, or `seen` when there
is no such call. -/
def Cache.lastAccess (fuel : Nat) (k : String) : Cache → Nat → Nat → List Op → Nat
  | _, _, seen, [] => seen
  | c, t, seen, op :: ops =>
    match c.step fuel op with
    | none => seen
    | some c1 =>
      Cache.lastAccess fuel k c1 (t + 1) (if c.accesses fuel k op then t else seen) ops

/-- The final cache of a sequence of calls. -/
def Cache.run (fuel : Nat) : Cache → List Op → Option Cache
  | c, [] => some c
  | c, op :: ops =>
    match c.step fuel op with
    | none => none
    | some c1 => Cache.run fuel c1 ops

/-- Repeated `RemoveOldest` calls evict the key `kb` before the key `ka`: after
some number of calls `kb` is gone and `ka` is still stored. -/
def evictsBefore (c : Cache) (kb ka : String) : Prop :=
  ∃ n : Nat, kb ∉ (Cache.RemoveOldest^[n] c).keys ∧ ka ∈ (Cache.RemoveOldest^[n] c).keys

/-- The results of successive `Get` calls, one for each key of the list. -/
def Cache.gets : Cache → List String → List (Option Value × Bool)
  | _, [] => []
  | c, key :: rest => (c.Get key).2 :: Cache.gets (c.Get key).1 rest

/-- The cache `New(100, 0.8, nil)` after `Set("a", v)` with `v.Len() = 10`. -/
def scenarioA : Cache :=
  { maxBytes := 100, nbbytes := 11, threshold := mkRat 4 5,
    ll := [⟨0, "a", ⟨0, 10⟩⟩], cache := [("a", 0)],
    OnEvicted := false, evictedCalls := [], nextAddr := 1 }

/-- The cache `scenarioA` after `Set("b", v)` with `v.Len() = 70`. -/
def scenarioAB : Cache :=
  { maxBytes := 100, nbbytes := 82, threshold := mkRat 4 5,
    ll := [⟨1, "b", ⟨0, 70⟩⟩, ⟨0, "a", ⟨0, 10⟩⟩], cache := [("b", 1), ("a", 0)],
    OnEvicted := false, evictedCalls := [], nextAddr := 2 }

/-- The cache `scenarioAB` after the rejected `Set("c", v)` with `v.Len() = 20`. -/
def scenarioABc : Cache :=
  { scenarioAB with nbbytes := 103 }

/-- The cache `New(10, 2.0, f)` after `Set("a", v)` with `v.Len() = 1`. -/
def scenarioLoop : Cache :=
  { maxBytes := 10, nbbytes := 2, threshold := 2,
    ll := [⟨0, "a", ⟨0, 1⟩⟩], cache := [("a", 0)],
    OnEvicted := true, evictedCalls := [], nextAddr := 1 }

/-- The cache `scenarioABc` after `Set("b", v)` with `v.Len() = 0`. -/
def scenarioDrift : Cache :=
  { scenarioABc with nbbytes := 33, ll := [⟨1, "b", ⟨1, 0⟩⟩, ⟨0, "a", ⟨0, 10⟩⟩] }

/-- The cache `New(100, 1.5, nil)` after `Set("a", v)` with `v.Len() = 89`. -/
def scenarioFraction : Cache :=
  { maxBytes := 100, nbbytes := 90, threshold := mkRat 3 2,
    ll := [⟨0, "a", ⟨0, 89⟩⟩], cache := [("a", 0)],
    OnEvicted := false, evictedCalls := [], nextAddr := 1 }

/-- The cache `scenarioAB` after the rejected `Set("a", v)` with `v.Len() = 50`. -/
def scenarioABa : Cache :=
  { scenarioAB with nbbytes := 122 }

/-- The cache `scenarioABc` after `Get("a")`. -/
def scenarioRecency : Cache :=
  { scenarioABc with ll := [⟨0, "a", ⟨0, 10⟩⟩, ⟨1, "b", ⟨0, 70⟩⟩] }

/-- The cache `New(100, 0.8, f)` after `Set("a", 10 bytes)`, `Set("b", 70 bytes)`
and the rejected `Set("c", 20 bytes)`. -/
def scenarioLogged : Cache :=
  { scenarioABc with OnEvicted := true }

/-- The recency invariant: along the list the stamps decrease strictly, and
they are all below the clock. -/
def stamped (keys : List String) (st : String → Nat) (t : Nat) : Prop :=
  keys.Pairwise (fun k1 k2 => st k2 < st k1) ∧ ∀ k ∈ keys, st k < t

/-- The cache `scenarioAB` after `Set("c", v)` with `v.Len() = 16`. -/
def scenarioNearFull : Cache :=
  { maxBytes := 100, nbbytes := 99, threshold := mkRat 4 5,
    ll := [⟨2, "c", ⟨0, 16⟩⟩, ⟨1, "b", ⟨0, 70⟩⟩, ⟨0, "a", ⟨0, 10⟩⟩],
    cache := [("c", 2), ("b", 1), ("a", 0)],
    OnEvicted := false, evictedCalls := [], nextAddr := 3 }

/-- The entries of the recency list, front first. -/
def Cache.entries (c : Cache) : List entry := c.ll.map (fun e => e.Value)

/-- Whether an integer lies in the `int64` range. -/
def inInt64 (x : Int) : Prop :=
  -9223372036854775808 ≤ x ∧ x < 9223372036854775808

instance (x : Int) : Decidable (inInt64 x) := by
  unfold inInt64
  infer_instance

/-- The cache `scenarioLogged` after `Remove("b")`. -/
def scenarioRemoved : Cache :=
  { maxBytes := 100, nbbytes := 32, threshold := mkRat 4 5,
    ll := [⟨0, "a", ⟨0, 10⟩⟩], cache := [("a", 0)],
    OnEvicted := true, evictedCalls := [("b", ⟨0, 70⟩)], nextAddr := 2 }

/-- The cache `scenarioLogged` after `RemoveOldest()`. -/
def scenarioOldest : Cache :=
  { maxBytes := 100, nbbytes := 92, threshold := mkRat 4 5,
    ll := [⟨1, "b", ⟨0, 70⟩⟩], cache := [("b", 1)],
    OnEvicted := true, evictedCalls := [("a", ⟨0, 10⟩)], nextAddr := 2 }

/-- The cache `New(0, 0.8, nil)` after `Set("a", v)` with `v.Len() = 1000`. -/
def scenarioUnbounded : Cache :=
  { maxBytes := 0, nbbytes := 1001, threshold := mkRat 4 5,
    ll := [⟨0, "a", ⟨0, 1000⟩⟩], cache := [("a", 0)],
    OnEvicted := false, evictedCalls := [], nextAddr := 1 }

/-- The counter a call leaves when its arithmetic is done on unbounded integers:
`nbbytes` plus the delta for `Set`, `nbbytes` minus `len(key) + value.Len()` of
the element unlinked by `Remove` or `RemoveOldest`. -/
def Cache.exactCounter (c : Cache) : Op → Int
  | .Get _ => c.nbbytes
  | .Set key value => c.nbbytes + delta c key value
  | .Remove key =>
    match c.lookup key with
    | some ele => c.nbbytes - (keyLen ele.Value.key + ele.Value.value.Len)
    | none => c.nbbytes
  | .RemoveOldest =>
    match c.ll.getLast? with
    | some ele => c.nbbytes - (keyLen ele.Value.key + ele.Value.value.Len)
    | none => c.nbbytes

/-- Whether the value the call passes, if any, has a non-negative `Len()`. -/
def Op.nonneg : Op → Bool
  | .Set _ value => decide (0 ≤ value.Len)
  | .Get _ => true
  | .Remove _ => true
  | .RemoveOldest => true

/-- The states reached from a `New` with `maxBytes > 0` by calls that return,
pass values of non-negative `Len()` and do not overflow: the counter each call
leaves is the one of unbounded arithmetic. -/
inductive ReachableExact : Cache → Prop where
  | new (maxBytes : Int) (threshold : Rat) (onEvicted : Bool) :
      0 < maxBytes → ReachableExact (New maxBytes threshold onEvicted)
  | step (c c1 : Cache) (fuel : Nat) (op : Op) :
      ReachableExact c → op.nonneg = true → c.step fuel op = some c1 →
      c1.nbbytes = c.exactCounter op → ReachableExact c1

/-- The states reached from `New` by calls among which no `Set` returns
`false`. -/
inductive ReachableAccepted : Cache → Prop where
  | new (maxBytes : Int) (threshold : Rat) (onEvicted : Bool) :
      ReachableAccepted (New maxBytes threshold onEvicted)
  | get (c : Cache) (key : String) :
      ReachableAccepted c → ReachableAccepted (c.Get key).1
  | set (c c1 : Cache) (fuel : Nat) (key : String) (value : Value) :
      ReachableAccepted c → c.Set fuel key value = some (c1, true) → ReachableAccepted c1
  | remove (c : Cache) (key : String) :
      ReachableAccepted c → ReachableAccepted (c.Remove key).1
  | removeOldest (c : Cache) :
      ReachableAccepted c → ReachableAccepted c.RemoveOldest

/-! ## Integer arithmetic and the loop of `Set` -/

/-- `RemoveOldest` does not change `maxBytes`. -/
theorem RemoveOldest_maxBytes (c : Cache) : c.RemoveOldest.maxBytes = c.maxBytes := by
  unfold Cache.RemoveOldest
  cases c.ll.getLast? <;> rfl

/-- The loop of `Set` either does not start or does not stop: its condition
reads `maxBytes` and the value computed before the loop, which `RemoveOldest`
leaves as they are. -/
theorem evictLoop_eq (tv : Int) (fuel : Nat) (c : Cache) :
    evictLoop tv fuel c = if c.maxBytes ≠ 0 ∧ c.maxBytes < tv then none else some c := by
  induction fuel generalizing c with
  | zero => unfold evictLoop; split <;> rfl
  | succ n ih =>
    unfold evictLoop
    by_cases h : c.maxBytes ≠ 0 ∧ c.maxBytes < tv
    · rw [if_pos h, if_pos h]
      show evictLoop tv n c.RemoveOldest = none
      rw [ih, RemoveOldest_maxBytes, if_pos h]
    · rw [if_neg h, if_neg h]

/-- `Set` unfolded: the rejected write, the loop that never ends, or the
accepted write with no eviction. -/
theorem Set_eq (c : Cache) (fuel : Nat) (key : String) (value : Value) :
    c.Set fuel key value =
      if (c.store key value).2 = false then some ((c.store key value).1, false)
      else if (c.store key value).1.maxBytes ≠ 0 ∧
          (c.store key value).1.maxBytes < (c.store key value).1.thresholdValue then none
      else some ((c.store key value).1, true) := by
  unfold Cache.Set
  rcases h : c.store key value with ⟨c1, b⟩
  cases b
  · simp
  · simp only [evictLoop_eq]
    split_ifs <;> simp_all

/-- A result of `Set` does not depend on the bound on the iterations. -/
theorem Set_of_zero {c : Cache} {key : String} {value : Value} {r : Cache × Bool}
    (h : c.Set 0 key value = some r) (fuel : Nat) : c.Set fuel key value = some r := by
  rw [Set_eq] at h ⊢
  exact h

/-- A `Set` that has not returned with bound `0` returns with no bound. -/
theorem Set_none_of_zero {c : Cache} {key : String} {value : Value}
    (h : c.Set 0 key value = none) (fuel : Nat) : c.Set fuel key value = none := by
  rw [Set_eq] at h ⊢
  exact h

/-- The reduction `wrap64` keeps the residue modulo `2^64`. -/
theorem wrap64_modEq (x : Int) : wrap64 x ≡ x [ZMOD 18446744073709551616] := by
  unfold wrap64
  have h := Int.mod_modEq (x + 9223372036854775808) 18446744073709551616
  have := h.sub_right 9223372036854775808
  simpa using this

theorem wrap64_congr {x y : Int} (h : x ≡ y [ZMOD 18446744073709551616]) :
    wrap64 x = wrap64 y := by
  unfold wrap64
  have := h.add_right 9223372036854775808
  rw [Int.ModEq] at this
  rw [this]

/-- The reduction `wrap64` is the identity on the `int64` range. -/
theorem wrap64_of_range {x : Int} (h1 : -9223372036854775808 ≤ x) (h2 : x < 9223372036854775808) :
    wrap64 x = x := by
  unfold wrap64
  rw [Int.emod_eq_of_lt (by omega) (by omega)]
  omega

/-! ## The list and the map -/

theorem findElement_some {l : List Element} {a : Nat} {e : Element}
    (h : findElement l a = some e) : e ∈ l ∧ e.addr = a := by
  unfold findElement at h
  exact ⟨List.mem_of_find?_eq_some h, by simpa using List.find?_some h⟩

theorem findElement_of_mem {l : List Element} {e : Element}
    (hn : (l.map (fun e => e.addr)).Nodup) (he : e ∈ l) : findElement l e.addr = some e := by
  induction l with
  | nil => cases he
  | cons x xs ih =>
    rw [List.map_cons, List.nodup_cons] at hn
    unfold findElement
    rw [List.find?_cons]
    by_cases hx : x.addr = e.addr
    · rcases List.mem_cons.1 he with rfl | hmem
      · simp
      · exact absurd (hx ▸ List.mem_map_of_mem (fun e => e.addr) hmem) hn.1
    · rcases List.mem_cons.1 he with rfl | hmem
      · exact absurd rfl hx
      · simp only [hx, decide_False]
        exact ih hn.2 hmem

theorem findElement_none {l : List Element} {a : Nat}
    (h : findElement l a = none) : a ∉ l.map (fun e => e.addr) := by
  unfold findElement at h
  rw [List.find?_eq_none] at h
  intro hmem
  obtain ⟨e, he, hea⟩ := List.mem_map.1 hmem
  exact h e he (by simpa using hea)

theorem mapGet_some_mem {m : List (String × Nat)} {k : String} {a : Nat}
    (h : mapGet m k = some a) : (k, a) ∈ m := by
  induction m with
  | nil => simp [mapGet] at h
  | cons p m ih =>
    obtain ⟨k1, a1⟩ := p
    unfold mapGet at h
    by_cases hk : k1 = k
    · rw [if_pos hk] at h
      cases h
      subst hk
      exact List.mem_cons_self _ _
    · rw [if_neg hk] at h
      exact List.mem_cons_of_mem _ (ih h)

theorem mapGet_of_mem {m : List (String × Nat)} {k : String} {a : Nat}
    (hn : (m.map Prod.fst).Nodup) (h : (k, a) ∈ m) : mapGet m k = some a := by
  induction m with
  | nil => cases h
  | cons p m ih =>
    obtain ⟨k1, a1⟩ := p
    rw [List.map_cons, List.nodup_cons] at hn
    unfold mapGet
    rcases List.mem_cons.1 h with heq | hmem
    · cases heq
      rw [if_pos rfl]
    · have hne : k1 ≠ k := by
        rintro rfl
        exact hn.1 (List.mem_map.2 ⟨(k1, a), hmem, rfl⟩)
      rw [if_neg hne]
      exact ih hn.2 hmem

theorem mapGet_none {m : List (String × Nat)} {k : String}
    (h : mapGet m k = none) : k ∉ m.map Prod.fst := by
  induction m with
  | nil => simp
  | cons p m ih =>
    obtain ⟨k1, a1⟩ := p
    unfold mapGet at h
    by_cases hk : k1 = k
    · rw [if_pos hk] at h
      cases h
    · rw [if_neg hk] at h
      simp only [List.map_cons, List.mem_cons, not_or]
      exact ⟨fun h' => hk h'.symm, ih h⟩

/-- In a well-formed cache a successful lookup yields the element of the list
that holds the key. -/
theorem lookup_some {c : Cache} {key : String} {ele : Element} (hw : c.wf)
    (h : c.lookup key = some ele) :
    ele ∈ c.ll ∧ ele.Value.key = key ∧ mapGet c.cache key = some ele.addr := by
  obtain ⟨hA, _, _, hI1, _, _⟩ := hw
  unfold Cache.lookup at h
  cases hm : mapGet c.cache key with
  | none => rw [hm] at h; cases h
  | some a =>
    rw [hm] at h
    obtain ⟨hmem, haddr⟩ := findElement_some h
    obtain ⟨e, he, hea, hek⟩ := hI1 _ (mapGet_some_mem hm)
    have : e = ele := List.inj_on_of_nodup_map hA he hmem (by simp [hea, haddr])
    subst this
    exact ⟨hmem, hek, by rw [haddr]⟩

/-- In a well-formed cache every element of the list is found under its key. -/
theorem lookup_of_mem {c : Cache} {e : Element} (hw : c.wf) (he : e ∈ c.ll) :
    c.lookup e.Value.key = some e := by
  obtain ⟨hA, _, hM, _, hI2, _⟩ := hw
  unfold Cache.lookup
  rw [mapGet_of_mem hM (hI2 e he)]
  exact findElement_of_mem hA he

theorem lookup_none {c : Cache} {key : String} (hw : c.wf)
    (h : c.lookup key = none) : key ∉ c.keys := by
  intro hmem
  obtain ⟨e, he, hek⟩ := List.mem_map.1 hmem
  have := lookup_of_mem hw he
  rw [hek, h] at this
  cases this

theorem listRemove_perm {l : List Element} {a : Nat} {e : Element}
    (hn : (l.map (fun e => e.addr)).Nodup) (h : findElement l a = some e) :
    (e :: listRemove l a).Perm l := by
  induction l with
  | nil => simp [findElement] at h
  | cons x xs ih =>
    rw [List.map_cons, List.nodup_cons] at hn
    unfold findElement at h
    rw [List.find?_cons] at h
    unfold listRemove
    by_cases hx : x.addr = a
    · simp only [hx, decide_True] at h
      cases h
      have : List.filter (fun e => decide (e.addr ≠ a)) xs = xs := by
        rw [List.filter_eq_self]
        intro y hy
        have : y.addr ≠ a := by
          intro hya
          exact hn.1 (by rw [hx, ← hya]; exact List.mem_map_of_mem (fun e => e.addr) hy)
        simpa using this
      rw [List.filter_cons, this]
      simp [hx]
    · simp only [hx, decide_False] at h
      have := ih hn.2 h
      simp only [List.filter_cons, hx, ne_eq, not_false_eq_true, decide_True, if_true]
      exact (List.Perm.swap x e _).trans (List.Perm.cons x this)

/-- `MoveToFront` permutes a list whose addresses are pairwise different. -/
theorem MoveToFront_perm {l : List Element} {a : Nat}
    (hn : (l.map (fun e => e.addr)).Nodup) : (MoveToFront l a).Perm l := by
  unfold MoveToFront
  cases h : findElement l a with
  | none => exact List.Perm.refl _
  | some e => exact listRemove_perm hn h

theorem setValue_addr (l : List Element) (a : Nat) (v : Value) :
    (setValue l a v).map (fun e => e.addr) = l.map (fun e => e.addr) := by
  unfold setValue
  rw [List.map_map]
  apply List.map_congr_left
  intro e _
  simp only [Function.comp]
  split <;> rfl

theorem setValue_key (l : List Element) (a : Nat) (v : Value) :
    (setValue l a v).map (fun e => e.Value.key) = l.map (fun e => e.Value.key) := by
  unfold setValue
  rw [List.map_map]
  apply List.map_congr_left
  intro e _
  simp only [Function.comp]
  split <;> rfl

theorem setValue_pair (l : List Element) (a : Nat) (v : Value) :
    (setValue l a v).map (fun e => (e.Value.key, e.addr)) =
      l.map (fun e => (e.Value.key, e.addr)) := by
  unfold setValue
  rw [List.map_map]
  apply List.map_congr_left
  intro e _
  simp only [Function.comp]
  split <;> rfl

/-! ## The representation invariant is kept by every method -/

/-- The invariant only reads the keys and addresses of the list elements, up
to their order. -/
theorem wf_congr {c c1 : Cache} (hw : c.wf)
    (hp : (c1.ll.map (fun e => (e.Value.key, e.addr))).Perm
      (c.ll.map (fun e => (e.Value.key, e.addr))))
    (hc : c1.cache = c.cache) (hn : c1.nextAddr = c.nextAddr) : c1.wf := by
  obtain ⟨hA, hK, hM, hI1, hI2, hF⟩ := hw
  have hmem : ∀ q : String × Nat, (∃ e ∈ c1.ll, e.addr = q.2 ∧ e.Value.key = q.1) ↔
      (∃ e ∈ c.ll, e.addr = q.2 ∧ e.Value.key = q.1) := by
    intro q
    have := hp.mem_iff (a := q)
    simp only [List.mem_map] at this
    constructor
    · rintro ⟨e, he, h1, h2⟩
      obtain ⟨e', he', h'⟩ := this.1 ⟨e, he, Prod.ext h2 h1⟩
      exact ⟨e', he', by rw [← h'], by rw [← h']⟩
    · rintro ⟨e, he, h1, h2⟩
      obtain ⟨e', he', h'⟩ := this.2 ⟨e, he, Prod.ext h2 h1⟩
      exact ⟨e', he', by rw [← h'], by rw [← h']⟩
  refine ⟨?_, ?_, ?_, ?_, ?_, ?_⟩
  · have h := (hp.map Prod.snd).nodup_iff
    simp only [List.map_map, Function.comp] at h
    exact h.2 hA
  · have h := (hp.map Prod.fst).nodup_iff
    simp only [List.map_map, Function.comp] at h
    exact h.2 hK
  · rw [hc]; exact hM
  · intro p hp'
    rw [hc] at hp'
    exact (hmem p).2 (hI1 p hp')
  · intro e he
    obtain ⟨e', he', h1, h2⟩ := (hmem (e.Value.key, e.addr)).1 ⟨e, he, rfl, rfl⟩
    have := hI2 e' he'
    rw [hc]
    simpa [h1, h2] using this
  · intro e he
    obtain ⟨e', he', h1, _⟩ := (hmem (e.Value.key, e.addr)).1 ⟨e, he, rfl, rfl⟩
    have := hF e' he'
    rw [hn]
    simpa [h1] using this

theorem wf_New (maxBytes : Int) (threshold : Rat) (onEvicted : Bool) :
    (New maxBytes threshold onEvicted).wf := by
  simp [New, Cache.wf]

theorem wf_Get {c : Cache} (hw : c.wf) (key : String) : (c.Get key).1.wf := by
  unfold Cache.Get
  cases h : c.lookup key with
  | none => exact hw
  | some ele => exact wf_congr hw ((MoveToFront_perm hw.1).map _) rfl rfl

theorem wf_evict {c : Cache} (hw : c.wf) {ele : Element} (he : ele ∈ c.ll) :
    (c.evict ele).wf := by
  obtain ⟨hA, hK, hM, hI1, hI2, hF⟩ := hw
  have hsub : (listRemove c.ll ele.addr).Sublist c.ll := List.filter_sublist _
  have hsubm : (mapDelete c.cache ele.Value.key).Sublist c.cache := List.filter_sublist _
  refine ⟨hA.sublist (hsub.map _), hK.sublist (hsub.map _), hM.sublist (hsubm.map _), ?_, ?_, ?_⟩
  · intro p hp
    have hp' : p ∈ c.cache ∧ p.1 ≠ ele.Value.key := by
      simpa [Cache.evict, mapDelete, List.mem_filter] using hp
    obtain ⟨e, he', h1, h2⟩ := hI1 p hp'.1
    refine ⟨e, ?_, h1, h2⟩
    have hne : e.addr ≠ ele.addr := by
      intro h
      have : e = ele := List.inj_on_of_nodup_map hA he' he h
      exact hp'.2 (by rw [← h2, this])
    simpa [Cache.evict, listRemove, List.mem_filter] using And.intro he' hne
  · intro e he'
    have he'' : e ∈ c.ll ∧ e.addr ≠ ele.addr := by
      simpa [Cache.evict, listRemove, List.mem_filter] using he'
    have hne : e.Value.key ≠ ele.Value.key := by
      intro h
      have : e = ele := List.inj_on_of_nodup_map hK he''.1 he h
      exact he''.2 (by rw [this])
    simpa [Cache.evict, mapDelete, List.mem_filter] using And.intro (hI2 e he''.1) hne
  · intro e he'
    exact hF e (hsub.subset he')

theorem wf_RemoveOldest {c : Cache} (hw : c.wf) : c.RemoveOldest.wf := by
  unfold Cache.RemoveOldest
  cases h : c.ll.getLast? with
  | none => exact hw
  | some ele => exact wf_evict hw (List.mem_of_getLast?_eq_some h)

theorem wf_Remove {c : Cache} (hw : c.wf) (key : String) : (c.Remove key).1.wf := by
  unfold Cache.Remove
  cases h : c.lookup key with
  | none => exact hw
  | some ele => exact wf_evict hw (lookup_some hw h).1

theorem wf_store {c : Cache} (hw : c.wf) (key : String) (value : Value) :
    (c.store key value).1.wf := by
  unfold Cache.store
  cases h : c.lookup key with
  | some ele =>
    dsimp only
    split
    · exact hw
    · refine wf_congr hw ?_ rfl rfl
      dsimp only
      rw [setValue_pair]
      exact (MoveToFront_perm hw.1).map _
  | none =>
    dsimp only
    split
    · exact hw
    · have hk : key ∉ c.keys := lookup_none hw h
      obtain ⟨hA, hK, hM, hI1, hI2, hF⟩ := hw
      have hsubm : (mapDelete c.cache key).Sublist c.cache := List.filter_sublist _
      refine ⟨?_, ?_, ?_, ?_, ?_, ?_⟩
      · simp only [List.map_cons, List.nodup_cons]
        refine ⟨?_, hA⟩
        intro hmem
        obtain ⟨e, he, hea⟩ := List.mem_map.1 hmem
        have := hF e he
        rw [hea] at this
        exact lt_irrefl _ this
      · simp only [List.map_cons, List.nodup_cons]
        exact ⟨hk, hK⟩
      · simp only [mapSet, List.map_cons, List.nodup_cons]
        refine ⟨?_, hM.sublist (hsubm.map _)⟩
        simp [mapDelete, List.mem_filter]
      · intro p hp
        simp only [mapSet, List.mem_cons] at hp
        rcases hp with rfl | hp
        · exact ⟨_, List.mem_cons_self _ _, rfl, rfl⟩
        · have hp' : p ∈ c.cache := hsubm.subset hp
          obtain ⟨e, he, h1, h2⟩ := hI1 p hp'
          exact ⟨e, List.mem_cons_of_mem _ he, h1, h2⟩
      · intro e he
        simp only [List.mem_cons] at he
        rcases he with rfl | he
        · exact List.mem_cons_self _ _
        · have hne : e.Value.key ≠ key := by
            rintro rfl
            exact hk (List.mem_map_of_mem (fun e => e.Value.key) he)
          apply List.mem_cons_of_mem
          simpa [mapDelete, List.mem_filter] using And.intro (hI2 e he) hne
      · intro e he
        simp only [List.mem_cons] at he
        rcases he with rfl | he
        · exact Nat.lt_succ_self _
        · exact Nat.lt_succ_of_lt (hF e he)

/-- A `Set` that returns leaves the state of its update or insertion, and
when it returns `true` the loop condition is false. -/
theorem Set_some {c : Cache} {fuel : Nat} {key : String} {value : Value} {c1 : Cache} {ok : Bool}
    (h : c.Set fuel key value = some (c1, ok)) :
    c1 = (c.store key value).1 ∧ ok = (c.store key value).2 ∧
      (ok = true → ¬(c1.maxBytes ≠ 0 ∧ c1.maxBytes < c1.thresholdValue)) := by
  rw [Set_eq] at h
  split_ifs at h with h1 h2
  · cases h
    exact ⟨rfl, h1.symm, fun h => by cases h⟩
  · cases h
    refine ⟨rfl, ?_, fun _ => h2⟩
    cases hb : (c.store key value).2
    · exact absurd hb h1
    · rfl

theorem wf_Set {c : Cache} (hw : c.wf) {fuel : Nat} {key : String} {value : Value}
    {c1 : Cache} {ok : Bool} (h : c.Set fuel key value = some (c1, ok)) : c1.wf := by
  rw [(Set_some h).1]
  exact wf_store hw key value

theorem wf_step {c : Cache} (hw : c.wf) {fuel : Nat} {op : Op} {c1 : Cache}
    (h : c.step fuel op = some c1) : c1.wf := by
  cases op with
  | Get key =>
    simp only [Cache.step, Option.some.injEq] at h
    subst h
    exact wf_Get hw key
  | Set key value =>
    simp only [Cache.step] at h
    cases hs : c.Set fuel key value with
    | none => rw [hs] at h; cases h
    | some r =>
      obtain ⟨c2, ok⟩ := r
      rw [hs] at h
      cases h
      exact wf_Set hw hs
  | Remove key =>
    simp only [Cache.step, Option.some.injEq] at h
    subst h
    exact wf_Remove hw key
  | RemoveOldest =>
    simp only [Cache.step, Option.some.injEq] at h
    subst h
    exact wf_RemoveOldest hw

/-- Every reachable state satisfies the representation invariant. -/
theorem reachable_wf {c : Cache} (h : Reachable c) : c.wf := by
  induction h with
  | new maxBytes threshold onEvicted => exact wf_New _ _ _
  | step c c1 fuel op _ hs ih => exact wf_step ih hs

/-! ## The update or insertion of `Set` -/

/-- The counter after the update or insertion is the `int64` sum of the
counter and the delta. -/
theorem store_nbbytes (c : Cache) (key : String) (value : Value) :
    (c.store key value).1.nbbytes = wrap64 (c.nbbytes + delta c key value) := by
  unfold Cache.store delta
  cases h : c.lookup key with
  | some ele =>
    dsimp only
    have : wrap64 (c.nbbytes + wrap64 (wrap64 value.Len - wrap64 ele.Value.value.Len)) =
        wrap64 (c.nbbytes + (value.Len - ele.Value.value.Len)) :=
      wrap64_congr (Int.ModEq.add_left _
        ((wrap64_modEq _).trans ((wrap64_modEq _).sub (wrap64_modEq _))))
    split <;> exact this
  | none =>
    dsimp only
    have : wrap64 (c.nbbytes + wrap64 (wrap64 value.Len + keyLen key)) =
        wrap64 (c.nbbytes + (keyLen key + value.Len)) := by
      apply wrap64_congr
      apply Int.ModEq.add_left
      rw [add_comm (keyLen key)]
      exact (wrap64_modEq _).trans ((wrap64_modEq _).add_right _)
    split <;> exact this

/-- The capacity check fails exactly when `maxBytes != 0` and the new counter
is at or above `maxBytes`. -/
theorem store_snd (c : Cache) (key : String) (value : Value) :
    (c.store key value).2 = false ↔
      (c.maxBytes ≠ 0 ∧ wrap64 (c.nbbytes + delta c key value) ≥ c.maxBytes) := by
  rw [← store_nbbytes]
  unfold Cache.store
  cases h : c.lookup key with
  | some ele =>
    dsimp only
    split <;> simp_all
  | none =>
    dsimp only
    split <;> simp_all

theorem store_rejected {c : Cache} {key : String} {value : Value}
    (h : (c.store key value).2 = false) :
    (c.store key value).1 = { c with nbbytes := wrap64 (c.nbbytes + delta c key value) } := by
  rw [← store_nbbytes]
  revert h
  unfold Cache.store
  cases h : c.lookup key with
  | some ele =>
    dsimp only
    split <;> simp
  | none =>
    dsimp only
    split <;> simp

theorem store_frame (c : Cache) (key : String) (value : Value) :
    (c.store key value).1.maxBytes = c.maxBytes ∧
    (c.store key value).1.threshold = c.threshold ∧
    (c.store key value).1.OnEvicted = c.OnEvicted ∧
    (c.store key value).1.evictedCalls = c.evictedCalls := by
  unfold Cache.store
  cases h : c.lookup key with
  | some ele =>
    dsimp only
    split <;> simp
  | none =>
    dsimp only
    split <;> simp

/-- The keys stored after the update or insertion: the former ones, and the
key written when the write is accepted. -/
theorem store_keys {c : Cache} (hw : c.wf) (key : String) (value : Value) (k : String) :
    k ∈ (c.store key value).1.keys ↔
      (k ∈ c.keys ∨ (k = key ∧ (c.store key value).2 = true)) := by
  unfold Cache.store Cache.keys
  cases h : c.lookup key with
  | some ele =>
    have hkey : key ∈ c.ll.map (fun e => e.Value.key) :=
      List.mem_map.2 ⟨ele, (lookup_some hw h).1, (lookup_some hw h).2.1⟩
    dsimp only
    split
    · simp
    · dsimp only
      rw [setValue_key, ((MoveToFront_perm hw.1).map _).mem_iff]
      constructor
      · exact Or.inl
      · rintro (h1 | ⟨rfl, _⟩)
        · exact h1
        · exact hkey
  | none =>
    dsimp only
    split
    · simp
    · simp only [List.map_cons, List.mem_cons, and_true]
      exact or_comm

/-- After an accepted write, `Get` finds the value written. -/
theorem Get_after_store {c : Cache} {key : String} {value : Value}
    (h : (c.store key value).2 = true) :
    ((c.store key value).1.Get key).2 = (some value, true) := by
  revert h
  unfold Cache.store
  cases hl : c.lookup key with
  | some ele =>
    dsimp only
    split
    · intro h; cases h
    · intro _
      unfold Cache.lookup at hl
      cases hm : mapGet c.cache key with
      | none => rw [hm] at hl; cases hl
      | some a =>
        rw [hm] at hl
        have ha : ele.addr = a := (findElement_some hl).2
        subst ha
        have hl1 : findElement c.ll ele.addr = some ele := hl
        have hmtf : MoveToFront c.ll ele.addr = ele :: listRemove c.ll ele.addr := by
          unfold MoveToFront
          rw [hl1]
        have hfind : findElement (setValue (MoveToFront c.ll ele.addr) ele.addr value) ele.addr =
            some { ele with Value := { ele.Value with value := value } } := by
          rw [hmtf]
          simp [setValue, findElement]
        unfold Cache.Get Cache.lookup
        dsimp only
        rw [hm]
        dsimp only
        rw [hfind]
  | none =>
    dsimp only
    split
    · intro h; cases h
    · intro _
      simp [Cache.Get, Cache.lookup, mapSet, mapGet, findElement]

/-! ## Claims C1 to C4 -/

/-- C1 (defect of the code): the counter does not equal the true sum after a
successful `Set` that follows a rejected one.  On `New(100, 0.8, nil)` the
calls `Set("a", 10 bytes)`, `Set("b", 70 bytes)` return `true`, `Set("c", 20
bytes)` returns `false` and leaves `nbbytes = 103`, and `Set("b", 0 bytes)`
returns `true` with `nbbytes = 33` while the stored entries weigh `12`. -/
theorem C1_counter_drifts_after_rejected_set :
    (∀ fuel, (New 100 (mkRat 4 5) false).Set fuel "a" ⟨0, 10⟩ = some (scenarioA, true)) ∧
    (∀ fuel, scenarioA.Set fuel "b" ⟨0, 70⟩ = some (scenarioAB, true)) ∧
    (∀ fuel, scenarioAB.Set fuel "c" ⟨0, 20⟩ = some (scenarioABc, false)) ∧
    (∀ fuel, scenarioABc.Set fuel "b" ⟨1, 0⟩ = some (scenarioDrift, true)) ∧
    0 < scenarioDrift.maxBytes ∧ scenarioDrift.keys = ["b", "a"] ∧
    scenarioDrift.nbbytes = 33 ∧ trueBytes scenarioDrift.ll = 12 :=
  ⟨fun fuel => Set_of_zero (by decide) fuel, fun fuel => Set_of_zero (by decide) fuel,
    fun fuel => Set_of_zero (by decide) fuel, fun fuel => Set_of_zero (by decide) fuel,
    by decide, by decide, by decide, by decide⟩

/-- C2 (defect of the code): a `Set` that returns `true` has run its loop zero
times, so it has evicted nothing: the state it leaves is the one of the update
or insertion, no call to `OnEvicted` was made and every key stored before is
still stored.  Where the loop condition holds the call never returns: on
`New(10, 2.0, f)` after `Set("a", 1 byte)`, the call `Set("b", 3 bytes)` passes
the capacity check (`nbbytes = 6`), finds `10 < 12` and loops for ever. -/
theorem C2_set_returns_only_without_eviction :
    (∀ (c : Cache) (fuel : Nat) (key : String) (value : Value) (c1 : Cache),
        c.wf → c.Set fuel key value = some (c1, true) →
          c1 = (c.store key value).1 ∧ c1.evictedCalls = c.evictedCalls ∧
          (∀ k ∈ c.keys, k ∈ c1.keys)) ∧
    ((∀ fuel, (New 10 2 true).Set fuel "a" ⟨0, 1⟩ = some (scenarioLoop, true)) ∧
      (scenarioLoop.store "b" ⟨0, 3⟩).2 = true ∧
      (scenarioLoop.store "b" ⟨0, 3⟩).1.keys = ["b", "a"] ∧
      (scenarioLoop.store "b" ⟨0, 3⟩).1.nbbytes = 6 ∧
      (scenarioLoop.store "b" ⟨0, 3⟩).1.thresholdValue = 12 ∧
      ∀ fuel, scenarioLoop.Set fuel "b" ⟨0, 3⟩ = none) := by
  refine ⟨?_, ?_⟩
  · intro c fuel key value c1 hw h
    obtain ⟨h1, _, _⟩ := Set_some h
    refine ⟨h1, ?_, ?_⟩
    · rw [h1]; exact (store_frame c key value).2.2.2
    · intro k hk
      rw [h1, store_keys hw]
      exact Or.inl hk
  · exact ⟨fun fuel => Set_of_zero (by decide) fuel, by decide, by decide, by decide,
      by decide, fun fuel => Set_none_of_zero (by decide) fuel⟩

/-- Witness of C2: the first part at the call `Set("a", 10 bytes)` on
`New(100, 0.8, nil)`. -/
theorem C2_set_returns_only_without_eviction_witness :
    (New 100 (mkRat 4 5) false).wf ∧
    (New 100 (mkRat 4 5) false).Set 0 "a" ⟨0, 10⟩ = some (scenarioA, true) ∧
    scenarioA = ((New 100 (mkRat 4 5) false).store "a" ⟨0, 10⟩).1 ∧
    scenarioA.evictedCalls = (New 100 (mkRat 4 5) false).evictedCalls ∧
    (∀ k ∈ (New 100 (mkRat 4 5) false).keys, k ∈ scenarioA.keys) :=
  ⟨by decide, by decide,
    C2_set_returns_only_without_eviction.1 (New 100 (mkRat 4 5) false) 0 "a" ⟨0, 10⟩ scenarioA
      (by decide) (by decide)⟩

/-- C3 (defect of the code): the loop of `Set` does not always terminate.  On
`New(10, 2.0, nil)` the call `Set("a", 5 bytes)` passes the capacity check with
`nbbytes = 6`, computes `thresholdValue = 12` once, and `10 < 12` stays true
while `RemoveOldest` empties the list: the call returns for no bound on the
number of iterations. -/
theorem C3_set_loops_forever :
    ((New 10 2 false).store "a" ⟨0, 5⟩).2 = true ∧
    ((New 10 2 false).store "a" ⟨0, 5⟩).1.nbbytes = 6 ∧
    ((New 10 2 false).store "a" ⟨0, 5⟩).1.thresholdValue = 12 ∧
    ((New 10 2 false).store "a" ⟨0, 5⟩).1.RemoveOldest.ll = [] ∧
    ∀ fuel : Nat, (New 10 2 false).Set fuel "a" ⟨0, 5⟩ = none :=
  ⟨by decide, by decide, by decide, by decide, fun fuel => Set_none_of_zero (by decide) fuel⟩

/-- C4: in a well-formed cache, when `Set(key, value)` returns `true`, the
`Get(key)` that follows returns `(value, true)`. -/
theorem C4_get_after_set (c : Cache) (fuel : Nat) (key : String) (value : Value) (c1 : Cache)
    (_hw : c.wf) (h : c.Set fuel key value = some (c1, true)) :
    (c1.Get key).2 = (some value, true) := by
  obtain ⟨h1, h2, _⟩ := Set_some h
  rw [h1]
  exact Get_after_store h2.symm

/-- Witness of C4: `Set("b", 70 bytes)` on the cache holding `"a"`. -/
theorem C4_get_after_set_witness :
    scenarioA.wf ∧ scenarioA.Set 0 "b" ⟨0, 70⟩ = some (scenarioAB, true) ∧
    (scenarioAB.Get "b").2 = (some ⟨0, 70⟩, true) :=
  ⟨by decide, by decide,
    C4_get_after_set scenarioA 0 "b" ⟨0, 70⟩ scenarioAB (by decide) (by decide)⟩

/-! ## Claims C5, C6, C8 and C9 -/

/-- C5: a `Set` call that returns gives `false` exactly when `maxBytes != 0` and
the counter after adding the delta (the `int64` sum `nbbytes + delta`) is at
or above `maxBytes`, and `true` otherwise; in that case it returns whatever the
bound on the loop; and when the sum does not overflow the counter is the plain
sum.  The delta is `value.Len() - old.Len()` for an existing key and
`len(key) + value.Len()` for a new one. -/
theorem C5_set_false_iff_at_or_above_maxBytes (c : Cache) (key : String) (value : Value) :
    (∀ (fuel : Nat) (c1 : Cache) (ok : Bool), c.Set fuel key value = some (c1, ok) →
      ((ok = false ↔
          (c.maxBytes ≠ 0 ∧ wrap64 (c.nbbytes + delta c key value) ≥ c.maxBytes)) ∧
        (ok = true ↔
          ¬(c.maxBytes ≠ 0 ∧ wrap64 (c.nbbytes + delta c key value) ≥ c.maxBytes)))) ∧
    ((c.maxBytes ≠ 0 ∧ wrap64 (c.nbbytes + delta c key value) ≥ c.maxBytes) →
      ∀ fuel : Nat, ∃ c1 : Cache, c.Set fuel key value = some (c1, false)) ∧
    ((-9223372036854775808 ≤ c.nbbytes + delta c key value ∧
        c.nbbytes + delta c key value < 9223372036854775808) →
      wrap64 (c.nbbytes + delta c key value) = c.nbbytes + delta c key value) := by
  refine ⟨?_, ?_, ?_⟩
  · intro fuel c1 ok h
    obtain ⟨_, h2, _⟩ := Set_some h
    have := store_snd c key value
    rw [← h2] at this
    refine ⟨this, ?_⟩
    rw [← this]
    cases ok <;> simp
  · intro hc fuel
    have hs := (store_snd c key value).2 hc
    refine ⟨(c.store key value).1, ?_⟩
    rw [Set_eq, if_pos hs]
  · intro hr
    exact wrap64_of_range hr.1 hr.2

/-- Witness of C5: on `New(100, 0.8, nil)`, `Set("a", 10 bytes)` returns `true`
with `nbbytes = 11`, `Set("b", 70 bytes)` returns `true` with `nbbytes = 82`,
and `Set("c", 20 bytes)` returns `false` with `nbbytes = 103`; a `Set("c", 17
bytes)` instead, which brings the counter to `100`, is rejected, and a
`Set("c", 16 bytes)`, which brings it to `99`, is accepted. -/
theorem C5_set_false_iff_at_or_above_maxBytes_witness :
    (New 100 (mkRat 4 5) false).Set 0 "a" ⟨0, 10⟩ = some (scenarioA, true) ∧
    scenarioA.nbbytes = 11 ∧
    scenarioA.Set 0 "b" ⟨0, 70⟩ = some (scenarioAB, true) ∧
    scenarioAB.nbbytes = 82 ∧
    scenarioAB.Set 0 "c" ⟨0, 20⟩ = some (scenarioABc, false) ∧
    scenarioABc.nbbytes = 103 ∧
    scenarioAB.nbbytes + delta scenarioAB "c" ⟨0, 20⟩ = 103 ∧
    scenarioAB.Set 0 "c" ⟨0, 17⟩ = some ({ scenarioAB with nbbytes := 100 }, false) ∧
    scenarioAB.Set 0 "c" ⟨0, 16⟩ = some (scenarioNearFull, true) ∧
    ((false = false ↔
        (scenarioAB.maxBytes ≠ 0 ∧
          wrap64 (scenarioAB.nbbytes + delta scenarioAB "c" ⟨0, 20⟩) ≥ scenarioAB.maxBytes)) ∧
      (false = true ↔
        ¬(scenarioAB.maxBytes ≠ 0 ∧
          wrap64 (scenarioAB.nbbytes + delta scenarioAB "c" ⟨0, 20⟩) ≥ scenarioAB.maxBytes))) :=
  ⟨by decide, by decide, by decide, by decide, by decide, by decide, by decide, by decide,
    by decide,
    (C5_set_false_iff_at_or_above_maxBytes scenarioAB "c" ⟨0, 20⟩).1 0 scenarioABc false
      (by decide)⟩

theorem Get_nbbytes_irrelevant (c : Cache) (n : Int) (key : String) :
    ({ c with nbbytes := n }.Get key).2 = (c.Get key).2 ∧
    ({ c with nbbytes := n }.Get key).1 = { (c.Get key).1 with nbbytes := n } := by
  unfold Cache.Get Cache.lookup
  dsimp only
  cases mapGet c.cache key with
  | none => exact ⟨rfl, rfl⟩
  | some a =>
    dsimp only
    cases findElement c.ll a with
    | none => exact ⟨rfl, rfl⟩
    | some e => exact ⟨rfl, rfl⟩

theorem gets_nbbytes_irrelevant (c : Cache) (n : Int) (keys : List String) :
    Cache.gets { c with nbbytes := n } keys = Cache.gets c keys := by
  induction keys generalizing c with
  | nil => rfl
  | cons k rest ih =>
    unfold Cache.gets
    rw [(Get_nbbytes_irrelevant c n k).1, (Get_nbbytes_irrelevant c n k).2, ih]

/-- C6: when `Set(key, value)` returns `false`, the cache is the one before the
call except for `nbbytes`, which has received the attempted delta (in `int64`
arithmetic, and exactly when the sum does not overflow): the recency list and
the index are the same, so `Len()` and the results of all later `Get` calls
are those the cache would have given without the call. -/
theorem C6_rejected_set_changes_only_nbbytes (c : Cache) (fuel : Nat) (key : String)
    (value : Value) (c1 : Cache) (h : c.Set fuel key value = some (c1, false)) :
    c1 = { c with nbbytes := wrap64 (c.nbbytes + delta c key value) } ∧
    c1.ll = c.ll ∧ c1.cache = c.cache ∧ c1.Len = c.Len ∧
    (∀ keys : List String, Cache.gets c1 keys = Cache.gets c keys) ∧
    ((-9223372036854775808 ≤ c.nbbytes + delta c key value ∧
        c.nbbytes + delta c key value < 9223372036854775808) →
      c1.nbbytes = c.nbbytes + delta c key value) := by
  obtain ⟨h1, h2, _⟩ := Set_some h
  have hc1 : c1 = { c with nbbytes := wrap64 (c.nbbytes + delta c key value) } := by
    rw [h1]
    exact store_rejected h2.symm
  refine ⟨hc1, ?_, ?_, ?_, ?_, ?_⟩
  · rw [hc1]
  · rw [hc1]
  · rw [hc1]; rfl
  · intro keys
    rw [hc1]
    exact gets_nbbytes_irrelevant c _ keys
  · intro hr
    rw [hc1]
    exact wrap64_of_range hr.1 hr.2

/-- Witness of C6: the rejected `Set("c", 20 bytes)` of the scenario. -/
theorem C6_rejected_set_changes_only_nbbytes_witness :
    scenarioAB.Set 0 "c" ⟨0, 20⟩ = some (scenarioABc, false) ∧
    scenarioABc.ll = scenarioAB.ll ∧ scenarioABc.Len = 2 ∧
    scenarioABc.nbbytes = scenarioAB.nbbytes + 21 ∧
    (scenarioABc = { scenarioAB with
        nbbytes := wrap64 (scenarioAB.nbbytes + delta scenarioAB "c" ⟨0, 20⟩) } ∧
      scenarioABc.ll = scenarioAB.ll ∧ scenarioABc.cache = scenarioAB.cache ∧
      scenarioABc.Len = scenarioAB.Len ∧
      (∀ keys : List String, Cache.gets scenarioABc keys = Cache.gets scenarioAB keys) ∧
      ((-9223372036854775808 ≤ scenarioAB.nbbytes + delta scenarioAB "c" ⟨0, 20⟩ ∧
          scenarioAB.nbbytes + delta scenarioAB "c" ⟨0, 20⟩ < 9223372036854775808) →
        scenarioABc.nbbytes = scenarioAB.nbbytes + delta scenarioAB "c" ⟨0, 20⟩)) :=
  ⟨by decide, by decide, by decide, by decide,
    C6_rejected_set_changes_only_nbbytes scenarioAB 0 "c" ⟨0, 20⟩ scenarioABc (by decide)⟩

/-- C8 (defect of the code): the loop of `Set` compares `maxBytes` with
`nbbytes * int64(threshold)`, the threshold cut to an integer, not with the
exact product.  On `New(100, 1.5, nil)` the call `Set("a", 89 bytes)` returns
`true` with `nbbytes = 90` and `thresholdValue = 90`, although
`100 < 90 * 1.5 = 135`. -/
theorem C8_set_exit_uses_truncated_threshold :
    (∀ fuel, (New 100 (mkRat 3 2) false).Set fuel "a" ⟨0, 89⟩ = some (scenarioFraction, true)) ∧
    0 < scenarioFraction.maxBytes ∧
    scenarioFraction.nbbytes = 90 ∧
    scenarioFraction.thresholdValue = 90 ∧
    scenarioFraction.threshold = 3 / 2 ∧
    (scenarioFraction.maxBytes : Rat) < (scenarioFraction.nbbytes : Rat) * scenarioFraction.threshold := by
  refine ⟨fun fuel => Set_of_zero (by decide) fuel, by decide, by decide, by decide, ?_, ?_⟩
  · show mkRat 3 2 = 3 / 2
    norm_num [Rat.mkRat_eq_div]
  · show ((100 : Int) : Rat) < ((90 : Int) : Rat) * mkRat 3 2
    norm_num [Rat.mkRat_eq_div]

/-- C9: in every state reachable from `New` by `Get`, `Set`, `Remove` and
`RemoveOldest`, the keys of the index are exactly the keys of the entries of
the recency list, each key of the index is bound to the address of the list
element that holds this key, no two list entries share a key (nor an
address), the index binds each of its keys once, and `Len()` is the number of
keys of the index. -/
theorem C9_index_and_list_consistent (c : Cache) (h : Reachable c) :
    (∀ k : String, k ∈ c.cache.map Prod.fst ↔ k ∈ c.keys) ∧
    (∀ (k : String) (a : Nat), mapGet c.cache k = some a →
      ∃ e : Element, findElement c.ll a = some e ∧ e ∈ c.ll ∧ e.addr = a ∧ e.Value.key = k) ∧
    c.keys.Nodup ∧ (c.ll.map (fun e => e.addr)).Nodup ∧ (c.cache.map Prod.fst).Nodup ∧
    c.Len = (c.cache.map Prod.fst).dedup.length := by
  have hw := reachable_wf h
  obtain ⟨hA, hK, hM, hI1, hI2, hF⟩ := hw
  have hperm : c.cache.Perm (c.ll.map (fun e => (e.Value.key, e.addr))) := by
    rw [List.perm_ext_iff_of_nodup (List.Nodup.of_map _ hM)]
    · intro p
      constructor
      · intro hp
        obtain ⟨e, he, h1, h2⟩ := hI1 p hp
        exact List.mem_map.2 ⟨e, he, Prod.ext h2 h1⟩
      · intro hp
        obtain ⟨e, he, rfl⟩ := List.mem_map.1 hp
        exact hI2 e he
    · apply List.Nodup.of_map Prod.snd
      rw [List.map_map]
      exact hA
  refine ⟨?_, ?_, hK, hA, hM, ?_⟩
  · intro k
    have := (hperm.map Prod.fst).mem_iff (a := k)
    rw [List.map_map] at this
    exact this
  · intro k a hm
    obtain ⟨e, he, h1, h2⟩ := hI1 _ (mapGet_some_mem hm)
    refine ⟨e, ?_, he, h1, h2⟩
    have := findElement_of_mem hA he
    rw [h1] at this
    exact this
  · rw [List.Nodup.dedup hM, List.length_map, hperm.length_eq, List.length_map]
    rfl

/-- Witness of C9: the cache holding `"a"` is reachable by one `Set`. -/
theorem C9_index_and_list_consistent_witness :
    Reachable scenarioA ∧ scenarioA.Len = 1 ∧ scenarioA.cache.map Prod.fst = ["a"] ∧
    ((∀ k : String, k ∈ scenarioA.cache.map Prod.fst ↔ k ∈ scenarioA.keys) ∧
      (∀ (k : String) (a : Nat), mapGet scenarioA.cache k = some a →
        ∃ e : Element, findElement scenarioA.ll a = some e ∧ e ∈ scenarioA.ll ∧ e.addr = a ∧
          e.Value.key = k) ∧
      scenarioA.keys.Nodup ∧ (scenarioA.ll.map (fun e => e.addr)).Nodup ∧
      (scenarioA.cache.map Prod.fst).Nodup ∧
      scenarioA.Len = (scenarioA.cache.map Prod.fst).dedup.length) :=
  ⟨Reachable.step _ _ 0 (Op.Set "a" ⟨0, 10⟩) (Reachable.new 100 (mkRat 4 5) false) (by decide),
    by decide, by decide,
    C9_index_and_list_consistent scenarioA
      (Reachable.step _ _ 0 (Op.Set "a" ⟨0, 10⟩) (Reachable.new 100 (mkRat 4 5) false)
        (by decide))⟩

/-! ## Recency order -/

theorem listRemove_last {l : List Element} {e : Element}
    (hn : ((l ++ [e]).map (fun e => e.addr)).Nodup) : listRemove (l ++ [e]) e.addr = l := by
  unfold listRemove
  rw [List.filter_append]
  have h1 : List.filter (fun x => decide (x.addr ≠ e.addr)) [e] = [] := by simp
  rw [h1, List.append_nil, List.filter_eq_self]
  intro x hx
  have : x.addr ≠ e.addr := by
    intro hxe
    rw [List.map_append, List.nodup_append] at hn
    exact hn.2.2 (List.mem_map_of_mem (fun e => e.addr) hx) (by simp [hxe])
  simpa using this

/-- In a well-formed cache `RemoveOldest` drops the last key of the list. -/
theorem RemoveOldest_keys {c : Cache} (hw : c.wf) : c.RemoveOldest.keys = c.keys.dropLast := by
  rcases List.eq_nil_or_concat c.ll with h | ⟨l, e, h⟩
  · have hg : c.ll.getLast? = none := by rw [h]; rfl
    unfold Cache.RemoveOldest Cache.keys
    rw [hg, h]
    rfl
  · rw [List.concat_eq_append] at h
    have hg : c.ll.getLast? = some e := by rw [h]; simp
    have hA := hw.1
    rw [h] at hA
    unfold Cache.RemoveOldest Cache.keys
    rw [hg]
    show List.map _ (listRemove c.ll e.addr) = _
    rw [h, listRemove_last hA, List.map_append, List.map_singleton, List.dropLast_concat]

theorem evict_keys_sublist (c : Cache) (ele : Element) :
    (c.evict ele).keys.Sublist c.keys :=
  (List.filter_sublist _).map _

theorem touch_keys {c : Cache} (hw : c.wf) {key : String} {ele : Element}
    (h : c.lookup key = some ele) :
    ∃ rest : List String, (MoveToFront c.ll ele.addr).map (fun e => e.Value.key) = key :: rest ∧
      rest.Sublist c.keys ∧ key ∉ rest := by
  obtain ⟨hmem, hkey, _⟩ := lookup_some hw h
  have hf : findElement c.ll ele.addr = some ele := findElement_of_mem hw.1 hmem
  refine ⟨(listRemove c.ll ele.addr).map (fun e => e.Value.key), ?_, ?_, ?_⟩
  · unfold MoveToFront
    rw [hf, List.map_cons, hkey]
  · exact (List.filter_sublist _).map _
  · intro hin
    obtain ⟨e, he, hek⟩ := List.mem_map.1 hin
    have he' : e ∈ c.ll ∧ e.addr ≠ ele.addr := by
      simpa [listRemove, List.mem_filter] using he
    have : e = ele := List.inj_on_of_nodup_map hw.2.1 he'.1 hmem (by simp [hek, hkey])
    exact he'.2 (by rw [this])

theorem stamped_sublist {keys keys1 : List String} {st : String → Nat} {t : Nat}
    (h : stamped keys st t) (hs : keys1.Sublist keys) : stamped keys1 st (t + 1) :=
  ⟨h.1.sublist hs, fun k hk => Nat.lt_succ_of_lt (h.2 k (hs.subset hk))⟩

theorem stamped_touch {keys rest : List String} {st : String → Nat} {t : Nat} {key : String}
    (h : stamped keys st t) (hs : rest.Sublist keys) (hk : key ∉ rest) :
    stamped (key :: rest) (fun k => if key = k then t else st k) (t + 1) := by
  have hne : ∀ k ∈ rest, key ≠ k := fun k hkr hkk => hk (hkk ▸ hkr)
  refine ⟨List.Pairwise.cons ?_ ?_, ?_⟩
  · intro k hkr
    simp only [if_neg (hne k hkr), if_true]
    exact h.2 k (hs.subset hkr)
  · refine (h.1.sublist hs).imp_of_mem ?_
    intro k1 k2 h1 h2 hR
    simp only [if_neg (hne k1 h1), if_neg (hne k2 h2)]
    exact hR
  · intro k hkm
    rcases List.mem_cons.1 hkm with rfl | hkr
    · simp
    · simp only [if_neg (hne k hkr)]
      exact Nat.lt_succ_of_lt (h.2 k (hs.subset hkr))

theorem stamped_absent {keys : List String} {st : String → Nat} {t : Nat} {key : String}
    (h : stamped keys st t) (hk : key ∉ keys) :
    stamped keys (fun k => if key = k then t else st k) (t + 1) := by
  have hne : ∀ k ∈ keys, key ≠ k := fun k hkr hkk => hk (hkk ▸ hkr)
  refine ⟨h.1.imp_of_mem ?_, ?_⟩
  · intro k1 k2 h1 h2 hR
    simp only [if_neg (hne k1 h1), if_neg (hne k2 h2)]
    exact hR
  · intro k hkm
    simp only [if_neg (hne k hkm)]
    exact Nat.lt_succ_of_lt (h.2 k hkm)

theorem store_keys_shape {c : Cache} (hw : c.wf) (key : String) (value : Value) :
    ((c.store key value).2 = false ∧ (c.store key value).1.keys = c.keys) ∨
    ((c.store key value).2 = true ∧ ∃ rest : List String,
      (c.store key value).1.keys = key :: rest ∧ rest.Sublist c.keys ∧ key ∉ rest) := by
  unfold Cache.store Cache.keys
  cases h : c.lookup key with
  | some ele =>
    dsimp only
    split
    · exact Or.inl ⟨rfl, rfl⟩
    · refine Or.inr ⟨rfl, ?_⟩
      dsimp only
      rw [setValue_key]
      exact touch_keys hw h
  | none =>
    dsimp only
    split
    · exact Or.inl ⟨rfl, rfl⟩
    · exact Or.inr ⟨rfl, c.keys, rfl, List.Sublist.refl _, lookup_none hw h⟩

/-- One call keeps the recency invariant, the stamps being updated by the
access the call makes. -/
theorem stamped_step {c c1 : Cache} {fuel : Nat} {op : Op} {st : String → Nat} {t : Nat}
    (hw : c.wf) (h : stamped c.keys st t) (hs : c.step fuel op = some c1) :
    stamped c1.keys (fun k => if c.accesses fuel k op then t else st k) (t + 1) := by
  cases op with
  | Get key =>
    simp only [Cache.step, Option.some.injEq] at hs
    subst hs
    simp only [Cache.accesses, decide_eq_true_eq]
    unfold Cache.Get
    cases hl : c.lookup key with
    | none => exact stamped_absent h (lookup_none hw hl)
    | some ele =>
      obtain ⟨rest, h1, h2, h3⟩ := touch_keys hw hl
      show stamped (List.map _ (MoveToFront c.ll ele.addr)) _ _
      rw [h1]
      exact stamped_touch h h2 h3
  | Set key value =>
    simp only [Cache.step] at hs
    cases hS : c.Set fuel key value with
    | none => rw [hS] at hs; cases hs
    | some r =>
      obtain ⟨c2, ok⟩ := r
      rw [hS] at hs
      cases hs
      obtain ⟨e1, e2, _⟩ := Set_some hS
      simp only [Cache.accesses, hS]
      rcases store_keys_shape hw key value with ⟨hb, hk⟩ | ⟨hb, rest, hk, h2, h3⟩
      · rw [← e2] at hb
        rw [← e1] at hk
        subst hb
        simp only [Bool.and_false, Bool.false_eq_true, if_false]
        rw [hk]
        exact stamped_sublist h (List.Sublist.refl _)
      · rw [← e2] at hb
        rw [← e1] at hk
        subst hb
        simp only [Bool.and_true, decide_eq_true_eq]
        rw [hk]
        exact stamped_touch h h2 h3
  | Remove key =>
    simp only [Cache.step, Option.some.injEq] at hs
    subst hs
    simp only [Cache.accesses, Bool.false_eq_true, if_false]
    unfold Cache.Remove
    cases hl : c.lookup key with
    | none => exact stamped_sublist h (List.Sublist.refl _)
    | some ele => exact stamped_sublist h (evict_keys_sublist c ele)
  | RemoveOldest =>
    simp only [Cache.step, Option.some.injEq] at hs
    subst hs
    simp only [Cache.accesses, Bool.false_eq_true, if_false]
    refine stamped_sublist h ?_
    rw [RemoveOldest_keys hw]
    exact List.dropLast_sublist _

/-- A sequence of calls keeps the recency invariant, the stamps being the times
of the last accesses. -/
theorem stamped_run {fuel : Nat} {ops : List Op} :
    ∀ {c c1 : Cache} {st : String → Nat} {t : Nat}, c.wf → stamped c.keys st t →
      Cache.run fuel c ops = some c1 →
      c1.wf ∧ stamped c1.keys (fun k => Cache.lastAccess fuel k c t (st k) ops)
        (t + ops.length) := by
  induction ops with
  | nil =>
    intro c c1 st t hw h hr
    simp only [Cache.run, Option.some.injEq] at hr
    subst hr
    exact ⟨hw, h⟩
  | cons op ops ih =>
    intro c c1 st t hw h hr
    unfold Cache.run at hr
    cases hs : c.step fuel op with
    | none => rw [hs] at hr; cases hr
    | some c2 =>
      rw [hs] at hr
      have := ih (wf_step hw hs) (stamped_step hw h hs) hr
      simp only [Cache.lastAccess, hs, List.length_cons]
      rw [Nat.add_comm ops.length 1, ← Nat.add_assoc]
      exact this

/-- Under the recency invariant, of two stored keys the one with the smaller
stamp is evicted first. -/
theorem evict_order (st : String → Nat) {a b : String} (hab : st b < st a) :
    ∀ (n : Nat) (c : Cache), c.keys.length = n → c.wf →
      c.keys.Pairwise (fun k1 k2 => st k2 < st k1) → a ∈ c.keys → b ∈ c.keys →
      evictsBefore c b a := by
  intro n
  induction n with
  | zero =>
    intro c hlen _ _ ha _
    rw [List.length_eq_zero] at hlen
    rw [hlen] at ha
    cases ha
  | succ n ih =>
    intro c hlen hw hp ha hb
    rcases List.eq_nil_or_concat c.keys with h | ⟨ks, k, h⟩
    · rw [h] at ha; cases ha
    · rw [List.concat_eq_append] at h
      have hro : c.RemoveOldest.keys = ks := by
        rw [RemoveOldest_keys hw, h, List.dropLast_concat]
      have hnd : (ks ++ [k]).Nodup := by
        have := hw.2.1
        unfold Cache.keys at h
        rw [h] at this
        exact this
      rw [h] at ha hb hp hlen
      by_cases hkb : k = b
      · subst hkb
        refine ⟨1, ?_, ?_⟩
        · rw [Function.iterate_one, hro]
          intro hin
          exact (List.nodup_append.1 hnd).2.2 hin (List.mem_singleton_self _)
        · rw [Function.iterate_one, hro]
          rcases List.mem_append.1 ha with h1 | h1
          · exact h1
          · rw [List.mem_singleton] at h1
            subst h1
            exact absurd hab (lt_irrefl _)
      · have hb' : b ∈ ks := by
          rcases List.mem_append.1 hb with h1 | h1
          · exact h1
          · rw [List.mem_singleton] at h1
            exact absurd h1.symm hkb
        have ha' : a ∈ ks := by
          rcases List.mem_append.1 ha with h1 | h1
          · exact h1
          · rw [List.mem_singleton] at h1
            subst h1
            have := (List.pairwise_append.1 hp).2.2 b hb' a (List.mem_singleton_self _)
            exact absurd hab (lt_asymm this)
        have hlen' : c.RemoveOldest.keys.length = n := by
          rw [hro]
          simpa using hlen
        obtain ⟨m, h1, h2⟩ := ih c.RemoveOldest hlen' (wf_RemoveOldest hw)
          (by rw [hro]; exact (List.pairwise_append.1 hp).1) (by rw [hro]; exact ha')
          (by rw [hro]; exact hb')
        exact ⟨m + 1, by rw [Function.iterate_succ_apply]; exact h1,
          by rw [Function.iterate_succ_apply]; exact h2⟩

/-- Under the recency invariant, the key with the smaller stamp is never stored
without the one with the larger stamp. -/
theorem evict_order_never (st : String → Nat) {a b : String} (hab : st b < st a) :
    ∀ (n : Nat) (c : Cache), c.wf → c.keys.Pairwise (fun k1 k2 => st k2 < st k1) →
      (b ∈ c.keys → a ∈ c.keys) →
      b ∈ (Cache.RemoveOldest^[n] c).keys → a ∈ (Cache.RemoveOldest^[n] c).keys := by
  intro n
  induction n with
  | zero => intro c _ _ h; exact h
  | succ n ih =>
    intro c hw hp h
    rw [Function.iterate_succ_apply]
    refine ih c.RemoveOldest (wf_RemoveOldest hw) ?_ ?_
    · rw [RemoveOldest_keys hw]
      exact hp.sublist (List.dropLast_sublist _)
    · rw [RemoveOldest_keys hw]
      rcases List.eq_nil_or_concat c.keys with h0 | ⟨ks, k, h0⟩
      · rw [h0]; intro hb; cases hb
      · rw [List.concat_eq_append] at h0
        rw [h0, List.dropLast_concat]
        rw [h0] at h hp
        intro hb
        rcases List.mem_append.1 (h (List.mem_append_left _ hb)) with h1 | h1
        · exact h1
        · rw [List.mem_singleton] at h1
          subst h1
          have := (List.pairwise_append.1 hp).2.2 b hb a (List.mem_singleton_self _)
          exact absurd hab (lt_asymm this)

/-! ## Claims C7 and C10 -/

theorem step_of_zero {c c1 : Cache} {op : Op} (h : c.step 0 op = some c1) (fuel : Nat) :
    c.step fuel op = some c1 := by
  cases op with
  | Set key value =>
    simp only [Cache.step] at h ⊢
    cases hS : c.Set 0 key value with
    | none => rw [hS] at h; cases h
    | some r => rw [Set_of_zero hS fuel]; rw [hS] at h; exact h
  | Get key => exact h
  | Remove key => exact h
  | RemoveOldest => exact h

theorem run_of_zero {ops : List Op} :
    ∀ {c c1 : Cache}, Cache.run 0 c ops = some c1 → ∀ fuel, Cache.run fuel c ops = some c1 := by
  induction ops with
  | nil => intro c c1 h fuel; exact h
  | cons op ops ih =>
    intro c c1 h fuel
    unfold Cache.run at h ⊢
    cases hs : c.step 0 op with
    | none => rw [hs] at h; cases h
    | some c2 =>
      rw [hs] at h
      rw [step_of_zero hs fuel]
      exact ih h fuel

theorem runSets_of_zero {kvs : List (String × Value)} :
    ∀ {c : Cache} {r : Cache × List String}, Cache.runSets 0 c kvs = some r →
      ∀ fuel, Cache.runSets fuel c kvs = some r := by
  induction kvs with
  | nil => intro c r h fuel; exact h
  | cons kv kvs ih =>
    intro c r h fuel
    obtain ⟨key, value⟩ := kv
    unfold Cache.runSets at h ⊢
    cases hS : c.Set 0 key value with
    | none => rw [hS] at h; cases h
    | some p =>
      obtain ⟨c1, ok⟩ := p
      rw [hS] at h
      rw [Set_of_zero hS fuel]
      dsimp only at h ⊢
      cases hr : Cache.runSets 0 c1 kvs with
      | none => rw [hr] at h; cases h
      | some q =>
        rw [hr] at h
        rw [ih hr fuel]
        exact h

/-- A sequence of `Set` calls that returns keeps the invariant, stores the
former keys and those of the accepted calls, and calls `OnEvicted` never. -/
theorem runSets_inv {fuel : Nat} {kvs : List (String × Value)} :
    ∀ {c c1 : Cache} {acc : List String}, c.wf → Cache.runSets fuel c kvs = some (c1, acc) →
      c1.wf ∧ (∀ k, k ∈ c1.keys ↔ (k ∈ c.keys ∨ k ∈ acc)) ∧
        c1.evictedCalls = c.evictedCalls := by
  induction kvs with
  | nil =>
    intro c c1 acc hw h
    simp only [Cache.runSets, Option.some.injEq, Prod.mk.injEq] at h
    obtain ⟨rfl, rfl⟩ := h
    exact ⟨hw, fun k => by simp, rfl⟩
  | cons kv kvs ih =>
    intro c c1 acc hw h
    obtain ⟨key, value⟩ := kv
    unfold Cache.runSets at h
    cases hS : c.Set fuel key value with
    | none => rw [hS] at h; cases h
    | some p =>
      obtain ⟨c2, ok⟩ := p
      rw [hS] at h
      dsimp only at h
      cases hr : Cache.runSets fuel c2 kvs with
      | none => rw [hr] at h; cases h
      | some q =>
        obtain ⟨c3, acc3⟩ := q
        rw [hr] at h
        simp only [Option.some.injEq, Prod.mk.injEq] at h
        obtain ⟨rfl, hacc⟩ := h
        obtain ⟨e1, e2, _⟩ := Set_some hS
        obtain ⟨hw3, hk3, hev3⟩ := ih (wf_Set hw hS) hr
        refine ⟨hw3, ?_, ?_⟩
        · intro k
          rw [hk3, e1, store_keys hw, ← e2, ← hacc]
          cases ok
          · simp
          · simp only [and_true, if_true, List.mem_cons]
            tauto
        · rw [hev3, e1]
          exact (store_frame c key value).2.2.2

/-- C7 as stated fails when the later access is a rejected `Set`.  On
`New(100, 0.8, nil)` after `Set("a", 10 bytes)`, `Set("b", 70 bytes)` and
`Set("a", 50 bytes)`, which returns `false`, both keys are stored and the last
call on `"a"` (the third) is later than the last call on `"b"` (the second),
yet `RemoveOldest` evicts `"a"` first and never `"b"` before `"a"`. -/
theorem C7_rejected_set_does_not_refresh :
    (∀ fuel, Cache.run fuel (New 100 (mkRat 4 5) false)
      [Op.Set "a" ⟨0, 10⟩, Op.Set "b" ⟨0, 70⟩, Op.Set "a" ⟨0, 50⟩] = some scenarioABa) ∧
    scenarioAB.Set 0 "a" ⟨0, 50⟩ = some (scenarioABa, false) ∧
    "a" ∈ scenarioABa.keys ∧ "b" ∈ scenarioABa.keys ∧
    lastCall "b" 1 0 [Op.Set "a" ⟨0, 10⟩, Op.Set "b" ⟨0, 70⟩, Op.Set "a" ⟨0, 50⟩] = 2 ∧
    lastCall "a" 1 0 [Op.Set "a" ⟨0, 10⟩, Op.Set "b" ⟨0, 70⟩, Op.Set "a" ⟨0, 50⟩] = 3 ∧
    scenarioABa.RemoveOldest.keys = ["b"] ∧
    ¬ evictsBefore scenarioABa "b" "a" := by
  refine ⟨fun fuel => run_of_zero (by decide) fuel, by decide, by decide, by decide, by decide,
    by decide, by decide, ?_⟩
  rintro ⟨n, hb, ha⟩
  have hfix : ∀ m : Nat,
      Cache.RemoveOldest^[m] scenarioABa.RemoveOldest.RemoveOldest =
        scenarioABa.RemoveOldest.RemoveOldest := by
    intro m
    exact Function.iterate_fixed (by decide) m
  match n, hb, ha with
  | 0, hb, _ => exact hb (by decide)
  | 1, hb, _ => exact hb (by decide)
  | m + 2, _, ha =>
    rw [Function.iterate_succ_apply, Function.iterate_succ_apply, hfix m] at ha
    revert ha
    decide

/-- C7, amended: for every sequence of calls from `New` that returns and any
two stored keys `a` and `b`, if the last `Get` or accepted `Set` (a `Set` that
returned `true`) of `a` is later than that of `b`, then repeated
`RemoveOldest` calls evict `b` before `a`: after some number of calls `b` is
gone and `a` is still stored, and at no time is `b` stored without `a`. -/
theorem C7_recency_order (maxBytes : Int) (threshold : Rat) (onEvicted : Bool) (fuel : Nat)
    (ops : List Op) (c : Cache) (a b : String)
    (hrun : Cache.run fuel (New maxBytes threshold onEvicted) ops = some c)
    (ha : a ∈ c.keys) (hb : b ∈ c.keys)
    (hlt : Cache.lastAccess fuel b (New maxBytes threshold onEvicted) 1 0 ops <
      Cache.lastAccess fuel a (New maxBytes threshold onEvicted) 1 0 ops) :
    evictsBefore c b a ∧
    ∀ n : Nat, b ∈ (Cache.RemoveOldest^[n] c).keys → a ∈ (Cache.RemoveOldest^[n] c).keys := by
  have h0 : stamped (New maxBytes threshold onEvicted).keys (fun _ => 0) 1 :=
    ⟨List.Pairwise.nil, fun k hk => by cases hk⟩
  obtain ⟨hw, hst, _⟩ := stamped_run (wf_New maxBytes threshold onEvicted) h0 hrun
  exact ⟨evict_order
      (fun k => Cache.lastAccess fuel k (New maxBytes threshold onEvicted) 1 0 ops) hlt _ c rfl
      hw hst ha hb,
    fun n => evict_order_never
      (fun k => Cache.lastAccess fuel k (New maxBytes threshold onEvicted) 1 0 ops) hlt n c hw hst
      (fun _ => ha)⟩

/-- Witness of C7: after `Set("a")`, `Set("b")`, the rejected `Set("c")` and
`Get("a")`, `RemoveOldest` evicts `"b"`, not `"a"`. -/
theorem C7_recency_order_witness :
    Cache.run 0 (New 100 (mkRat 4 5) false)
      [Op.Set "a" ⟨0, 10⟩, Op.Set "b" ⟨0, 70⟩, Op.Set "c" ⟨0, 20⟩, Op.Get "a"] =
        some scenarioRecency ∧
    scenarioRecency.keys = ["a", "b"] ∧
    scenarioRecency.RemoveOldest.keys = ["a"] ∧
    (evictsBefore scenarioRecency "b" "a" ∧
      ∀ n : Nat, "b" ∈ (Cache.RemoveOldest^[n] scenarioRecency).keys →
        "a" ∈ (Cache.RemoveOldest^[n] scenarioRecency).keys) :=
  ⟨by decide, by decide, by decide,
    C7_recency_order 100 (mkRat 4 5) false 0
      [Op.Set "a" ⟨0, 10⟩, Op.Set "b" ⟨0, 70⟩, Op.Set "c" ⟨0, 20⟩, Op.Get "a"]
      scenarioRecency "a" "b" (by decide) (by decide) (by decide) (by decide)⟩

/-- C10 as stated fails: a key passed to a rejected `Set` is counted but not
stored.  On `New(100, 0.8, f)` the calls `Set("a", 10 bytes)`, `Set("b", 70
bytes)`, `Set("c", 20 bytes)` pass three distinct keys, the third call is
rejected, nothing is evicted or removed, and `Len()` is `2`. -/
theorem C10_rejected_key_is_counted_but_not_stored :
    (∀ fuel, Cache.runSets fuel (New 100 (mkRat 4 5) true)
      [("a", ⟨0, 10⟩), ("b", ⟨0, 70⟩), ("c", ⟨0, 20⟩)] = some (scenarioLogged, ["a", "b"])) ∧
    scenarioLogged.Len = 2 ∧
    ((["a", "b", "c"] : List String).dedup).length = 3 ∧
    scenarioLogged.OnEvicted = true ∧ scenarioLogged.evictedCalls = [] ∧
    scenarioLogged.Len ≠
      ((["a", "b", "c"] : List String).dedup).length -
        ((scenarioLogged.evictedCalls.map Prod.fst).dedup).length :=
  ⟨fun fuel => runSets_of_zero (by decide) fuel, by decide, by decide, by decide, by decide,
    by decide⟩

/-- C10, amended: after any sequence of `Set` calls on a cache created by `New`
(each of which returns), `Len()` is the number of distinct keys passed to the
`Set` calls that returned `true` minus the number of those keys that are no
longer stored; the latter number is zero: the keys of the accepted calls are
exactly the stored ones, and no call to `OnEvicted` has been made. -/
theorem C10_len_counts_accepted_keys (maxBytes : Int) (threshold : Rat) (onEvicted : Bool)
    (fuel : Nat) (kvs : List (String × Value)) (c : Cache) (acc : List String)
    (h : Cache.runSets fuel (New maxBytes threshold onEvicted) kvs = some (c, acc)) :
    c.Len = acc.dedup.length - (acc.dedup.filter (fun k => decide (k ∉ c.keys))).length ∧
    acc.dedup.filter (fun k => decide (k ∉ c.keys)) = [] ∧
    c.Len = acc.dedup.length ∧ (∀ k, k ∈ c.keys ↔ k ∈ acc) ∧ c.evictedCalls = [] := by
  obtain ⟨hw, hk, hev⟩ := runSets_inv (wf_New maxBytes threshold onEvicted) h
  have hk' : ∀ k, k ∈ c.keys ↔ k ∈ acc := by
    intro k
    rw [hk]
    simp [New, Cache.keys]
  have hnone : acc.dedup.filter (fun k => decide (k ∉ c.keys)) = [] := by
    rw [List.filter_eq_nil_iff]
    intro k hkm
    rw [List.mem_dedup, ← hk'] at hkm
    simpa using hkm
  suffices hlen : c.Len = acc.dedup.length by
    refine ⟨?_, hnone, hlen, hk', hev⟩
    rw [hnone, hlen]
    rfl
  have hperm : c.keys.Perm acc.dedup := by
    have hnd : c.keys.Nodup := hw.2.1
    rw [List.perm_ext_iff_of_nodup hnd (List.nodup_dedup acc)]
    intro k
    rw [hk', List.mem_dedup]
  rw [← hperm.length_eq]
  simp [Cache.Len, Cache.keys]

/-- Witness of C10: the three `Set` calls of the scenario, two of them accepted. -/
theorem C10_len_counts_accepted_keys_witness :
    Cache.runSets 0 (New 100 (mkRat 4 5) true)
      [("a", ⟨0, 10⟩), ("b", ⟨0, 70⟩), ("c", ⟨0, 20⟩)] = some (scenarioLogged, ["a", "b"]) ∧
    (scenarioLogged.Len = (["a", "b"] : List String).dedup.length -
        ((["a", "b"] : List String).dedup.filter
          (fun k => decide (k ∉ scenarioLogged.keys))).length ∧
      (["a", "b"] : List String).dedup.filter (fun k => decide (k ∉ scenarioLogged.keys)) = [] ∧
      scenarioLogged.Len = (["a", "b"] : List String).dedup.length ∧
      (∀ k, k ∈ scenarioLogged.keys ↔ k ∈ (["a", "b"] : List String)) ∧
      scenarioLogged.evictedCalls = []) :=
  ⟨by decide,
    C10_len_counts_accepted_keys 100 (mkRat 4 5) true 0
      [("a", ⟨0, 10⟩), ("b", ⟨0, 70⟩), ("c", ⟨0, 20⟩)] scenarioLogged ["a", "b"] (by decide)⟩

/-! ## The effect of each method on the list, the index and the counter -/

theorem MoveToFront_eq {l : List Element} {a : Nat} {e : Element}
    (h : findElement l a = some e) : MoveToFront l a = e :: listRemove l a := by
  unfold MoveToFront
  rw [h]

theorem setValue_of_not_mem {l : List Element} {a : Nat} (value : Value)
    (h : ∀ e ∈ l, e.addr ≠ a) : setValue l a value = l := by
  unfold setValue
  conv_rhs => rw [← List.map_id l]
  apply List.map_congr_left
  intro e he
  rw [if_neg (h e he)]
  rfl

theorem listRemove_addr_ne {l : List Element} {a : Nat} :
    ∀ e ∈ listRemove l a, e.addr ≠ a := by
  intro e he
  have : e ∈ l ∧ e.addr ≠ a := by simpa [listRemove, List.mem_filter] using he
  exact this.2

/-- In a well-formed cache, unlinking an element removes the entries of its key
and no other. -/
theorem listRemove_eq_filter_key {c : Cache} (hw : c.wf) {ele : Element} (he : ele ∈ c.ll) :
    listRemove c.ll ele.addr =
      c.ll.filter (fun e => decide (e.Value.key ≠ ele.Value.key)) := by
  unfold listRemove
  apply List.filter_congr
  intro x hx
  have h1 : x.addr = ele.addr ↔ x = ele :=
    ⟨fun h => List.inj_on_of_nodup_map hw.1 hx he h, fun h => by rw [h]⟩
  have h2 : x.Value.key = ele.Value.key ↔ x = ele :=
    ⟨fun h => List.inj_on_of_nodup_map hw.2.1 hx he h, fun h => by rw [h]⟩
  simp only [ne_eq, h1, h2]

theorem entries_filter (l : List Element) (key : String) :
    (l.filter (fun e => decide (e.Value.key ≠ key))).map (fun e => e.Value) =
      (l.map (fun e => e.Value)).filter (fun en => decide (en.key ≠ key)) := by
  rw [List.filter_map]
  rfl

theorem mem_keys_iff_lookup {c : Cache} (hw : c.wf) (key : String) :
    key ∈ c.keys ↔ ∃ ele, c.lookup key = some ele := by
  constructor
  · intro hk
    obtain ⟨e, he, hek⟩ := List.mem_map.1 hk
    exact ⟨e, hek ▸ lookup_of_mem hw he⟩
  · rintro ⟨ele, h⟩
    cases hn : c.lookup key with
    | none => rw [hn] at h; cases h
    | some e =>
      exact List.mem_map.2 ⟨e, (lookup_some hw hn).1, (lookup_some hw hn).2.1⟩

/-- The list after `Get` finds `ele` under `key`: `ele` in front of the other
elements in their former order. -/
theorem touch_ll {c : Cache} (hw : c.wf) {key : String} {ele : Element}
    (h : c.lookup key = some ele) :
    MoveToFront c.ll ele.addr =
      ele :: c.ll.filter (fun e => decide (e.Value.key ≠ key)) := by
  obtain ⟨hmem, hkey, _⟩ := lookup_some hw h
  rw [MoveToFront_eq (findElement_of_mem hw.1 hmem), listRemove_eq_filter_key hw hmem, hkey]

/-- The list after an accepted write: the element holding `(key, value)` in
front of the former elements of other keys, in their former order. -/
theorem store_ll {c : Cache} (hw : c.wf) {key : String} {value : Value}
    (h : (c.store key value).2 = true) :
    ∃ a : Nat, (c.store key value).1.ll =
      ⟨a, ⟨key, value⟩⟩ :: c.ll.filter (fun e => decide (e.Value.key ≠ key)) := by
  revert h
  unfold Cache.store
  cases hl : c.lookup key with
  | some ele =>
    dsimp only
    split
    · intro h; cases h
    · intro _
      obtain ⟨hmem, hkey, _⟩ := lookup_some hw hl
      refine ⟨ele.addr, ?_⟩
      dsimp only
      rw [MoveToFront_eq (findElement_of_mem hw.1 hmem)]
      unfold setValue
      rw [List.map_cons, if_pos rfl]
      have := setValue_of_not_mem value (listRemove_addr_ne (l := c.ll) (a := ele.addr))
      unfold setValue at this
      rw [this, listRemove_eq_filter_key hw hmem, hkey]
      simp [hkey]
  | none =>
    dsimp only
    split
    · intro h; cases h
    · intro _
      refine ⟨c.nextAddr, ?_⟩
      dsimp only
      have hk : key ∉ c.keys := lookup_none hw hl
      have : c.ll.filter (fun e => decide (e.Value.key ≠ key)) = c.ll := by
        rw [List.filter_eq_self]
        intro e he
        have : e.Value.key ≠ key := fun h => hk (h ▸ List.mem_map_of_mem (fun e => e.Value.key) he)
        simpa using this
      rw [this]

theorem store_Len {c : Cache} (hw : c.wf) {key : String} {value : Value}
    (h : (c.store key value).2 = true) :
    (key ∈ c.keys → (c.store key value).1.Len = c.Len) ∧
    (key ∉ c.keys → (c.store key value).1.Len = c.Len + 1) := by
  revert h
  unfold Cache.store Cache.Len
  cases hl : c.lookup key with
  | some ele =>
    have hk : key ∈ c.keys := (mem_keys_iff_lookup hw key).2 ⟨ele, hl⟩
    dsimp only
    split
    · intro h; cases h
    · intro _
      refine ⟨fun _ => ?_, fun hn => absurd hk hn⟩
      dsimp only
      have h1 : (setValue (MoveToFront c.ll ele.addr) ele.addr value).length =
          (MoveToFront c.ll ele.addr).length := by
        unfold setValue
        rw [List.length_map]
      rw [h1]
      exact (MoveToFront_perm hw.1).length_eq
  | none =>
    have hk : key ∉ c.keys := lookup_none hw hl
    dsimp only
    split
    · intro h; cases h
    · intro _
      exact ⟨fun hn => absurd hn hk, fun _ => rfl⟩

/-- The delta of the specification, read on the stored entries. -/
theorem delta_eq {c : Cache} (hw : c.wf) (key : String) (value : Value) :
    (∀ old ∈ c.entries, old.key = key → delta c key value = value.Len - old.value.Len) ∧
    (key ∉ c.keys → delta c key value = keyLen key + value.Len) := by
  constructor
  · intro old hold hkey
    obtain ⟨e, he, rfl⟩ := List.mem_map.1 hold
    have := lookup_of_mem hw he
    rw [hkey] at this
    unfold delta
    rw [this]
  · intro hk
    have : c.lookup key = none := by
      cases hl : c.lookup key with
      | none => rfl
      | some ele => exact absurd ((mem_keys_iff_lookup hw key).2 ⟨ele, hl⟩) hk
    unfold delta
    rw [this]

theorem mapGet_mapDelete (m : List (String × Nat)) (key k : String) :
    mapGet (mapDelete m key) k = if k = key then none else mapGet m k := by
  induction m with
  | nil =>
    simp [mapDelete, mapGet]
  | cons p m ih =>
    obtain ⟨k1, a1⟩ := p
    unfold mapDelete at ih ⊢
    rw [List.filter_cons]
    by_cases h1 : k1 = key
    · subst h1
      simp only [ne_eq, not_true_eq_false, decide_False, Bool.false_eq_true, if_false]
      rw [ih]
      by_cases h2 : k = k1
      · rw [if_pos h2, if_pos h2]
      · rw [if_neg h2, if_neg h2]
        have h2' : ¬k1 = k := fun h => h2 h.symm
        simp only [mapGet, if_neg h2']
    · simp only [ne_eq, h1, not_false_eq_true, decide_True, if_true]
      by_cases h3 : k1 = k
      · have h4 : ¬k = key := fun h => h1 (h3.trans h)
        simp only [mapGet, if_pos h3, if_neg h4]
      · simp only [mapGet, if_neg h3]
        exact ih

theorem evict_nbbytes (c : Cache) (ele : Element) :
    (c.evict ele).nbbytes =
      wrap64 (c.nbbytes - (keyLen ele.Value.key + ele.Value.value.Len)) := by
  unfold Cache.evict
  dsimp only
  apply wrap64_congr
  apply Int.ModEq.sub_left
  exact (wrap64_modEq _).trans (Int.ModEq.add_left _ (wrap64_modEq _))

/-- After the eviction of a stored element, a lookup of its key finds nothing. -/
theorem lookup_evict {c : Cache} (ele : Element) :
    (c.evict ele).lookup ele.Value.key = none := by
  unfold Cache.lookup Cache.evict
  dsimp only
  rw [mapGet_mapDelete, if_pos rfl]

/-! ## Claims C11 to C17 -/

/-- C11: in a well-formed cache, after a `Set(key, value)` that returns `true`
the entries of the recency list are `(key, value)` followed by the former
entries of the other keys, in their former order and with their values;
`Len()` is the same when `key` was stored and one more when it was not; and
`nbbytes` has received the delta (in `int64` arithmetic, and exactly when the
sum does not overflow), which is `value.Len() - old.Len()` for a stored key
and `len(key) + value.Len()` for a new one. -/
theorem C11_set_true_moves_to_front (c : Cache) (fuel : Nat) (key : String) (value : Value)
    (c1 : Cache) (hw : c.wf) (h : c.Set fuel key value = some (c1, true)) :
    c1.entries = ⟨key, value⟩ :: c.entries.filter (fun en => decide (en.key ≠ key)) ∧
    (key ∈ c.keys → c1.Len = c.Len) ∧
    (key ∉ c.keys → c1.Len = c.Len + 1) ∧
    c1.nbbytes = wrap64 (c.nbbytes + delta c key value) ∧
    (inInt64 (c.nbbytes + delta c key value) → c1.nbbytes = c.nbbytes + delta c key value) ∧
    (∀ old ∈ c.entries, old.key = key → delta c key value = value.Len - old.value.Len) ∧
    (key ∉ c.keys → delta c key value = keyLen key + value.Len) := by
  obtain ⟨h1, h2, _⟩ := Set_some h
  have hs : (c.store key value).2 = true := h2.symm
  obtain ⟨a, hll⟩ := store_ll hw hs
  have hnb : c1.nbbytes = wrap64 (c.nbbytes + delta c key value) := by
    rw [h1]
    exact store_nbbytes c key value
  refine ⟨?_, ?_, ?_, hnb, ?_, (delta_eq hw key value).1, (delta_eq hw key value).2⟩
  · rw [h1]
    unfold Cache.entries
    rw [hll, List.map_cons, entries_filter]
  · rw [h1]
    exact (store_Len hw hs).1
  · rw [h1]
    exact (store_Len hw hs).2
  · intro hr
    rw [hnb]
    exact wrap64_of_range hr.1 hr.2

/-- Witness of C11: the update of `"b"` in the cache holding `"b"` and `"a"`. -/
theorem C11_set_true_moves_to_front_witness :
    scenarioABc.wf ∧ scenarioABc.Set 0 "b" ⟨1, 0⟩ = some (scenarioDrift, true) ∧
    scenarioDrift.entries = [⟨"b", ⟨1, 0⟩⟩, ⟨"a", ⟨0, 10⟩⟩] ∧
    scenarioDrift.nbbytes = scenarioABc.nbbytes + (0 - 70) ∧
    (scenarioDrift.entries =
        ⟨"b", ⟨1, 0⟩⟩ :: scenarioABc.entries.filter (fun en => decide (en.key ≠ "b")) ∧
      ("b" ∈ scenarioABc.keys → scenarioDrift.Len = scenarioABc.Len) ∧
      ("b" ∉ scenarioABc.keys → scenarioDrift.Len = scenarioABc.Len + 1) ∧
      scenarioDrift.nbbytes = wrap64 (scenarioABc.nbbytes + delta scenarioABc "b" ⟨1, 0⟩) ∧
      (inInt64 (scenarioABc.nbbytes + delta scenarioABc "b" ⟨1, 0⟩) →
        scenarioDrift.nbbytes = scenarioABc.nbbytes + delta scenarioABc "b" ⟨1, 0⟩) ∧
      (∀ old ∈ scenarioABc.entries, old.key = "b" →
        delta scenarioABc "b" ⟨1, 0⟩ = (⟨1, 0⟩ : Value).Len - old.value.Len) ∧
      ("b" ∉ scenarioABc.keys →
        delta scenarioABc "b" ⟨1, 0⟩ = keyLen "b" + (⟨1, 0⟩ : Value).Len)) :=
  ⟨by decide, by decide, by decide, by decide,
    C11_set_true_moves_to_front scenarioABc 0 "b" ⟨1, 0⟩ scenarioDrift (by decide) (by decide)⟩

/-- C12: in a well-formed cache, `Get` of a stored key returns the value stored
for it with `true` and moves its element to the front; the other elements keep
their order, the list holds the same elements, and `nbbytes`, `Len()`, the
index and the calls made to `OnEvicted` are unchanged. -/
theorem C12_get_hit_moves_to_front (c : Cache) (key : String) (hw : c.wf)
    (hk : key ∈ c.keys) :
    ∃ ele ∈ c.ll, ele.Value.key = key ∧
      c.Get key =
        ({ c with ll := ele :: c.ll.filter (fun e => decide (e.Value.key ≠ key)) },
          some ele.Value.value, true) ∧
      (c.Get key).1.ll.Perm c.ll ∧ (c.Get key).1.Len = c.Len ∧
      (c.Get key).1.nbbytes = c.nbbytes := by
  obtain ⟨ele, hl⟩ := (mem_keys_iff_lookup hw key).1 hk
  obtain ⟨hmem, hkey, _⟩ := lookup_some hw hl
  have hget : c.Get key = ({ c with ll := MoveToFront c.ll ele.addr }, some ele.Value.value, true) := by
    unfold Cache.Get
    rw [hl]
  refine ⟨ele, hmem, hkey, ?_, ?_, ?_, ?_⟩
  · rw [hget, touch_ll hw hl]
  · rw [hget]
    exact MoveToFront_perm hw.1
  · rw [hget]
    exact (MoveToFront_perm hw.1).length_eq
  · rw [hget]

/-- Witness of C12: `Get("a")` in the cache holding `"b"` and `"a"`. -/
theorem C12_get_hit_moves_to_front_witness :
    scenarioABc.Get "a" = (scenarioRecency, some ⟨0, 10⟩, true) ∧
    ∃ ele ∈ scenarioABc.ll, ele.Value.key = "a" ∧
      scenarioABc.Get "a" =
        ({ scenarioABc with
            ll := ele :: scenarioABc.ll.filter (fun e => decide (e.Value.key ≠ "a")) },
          some ele.Value.value, true) ∧
      (scenarioABc.Get "a").1.ll.Perm scenarioABc.ll ∧
      (scenarioABc.Get "a").1.Len = scenarioABc.Len ∧
      (scenarioABc.Get "a").1.nbbytes = scenarioABc.nbbytes :=
  ⟨by decide, C12_get_hit_moves_to_front scenarioABc "a" (by decide) (by decide)⟩

/-- C13: in a well-formed cache, `Get` of a key that is not stored returns no
value with `false` and leaves the whole state as it is. -/
theorem C13_get_miss_changes_nothing (c : Cache) (key : String) (hw : c.wf)
    (hk : key ∉ c.keys) : c.Get key = (c, none, false) := by
  have hl : c.lookup key = none := by
    cases hl : c.lookup key with
    | none => rfl
    | some ele => exact absurd ((mem_keys_iff_lookup hw key).2 ⟨ele, hl⟩) hk
  unfold Cache.Get
  rw [hl]

/-- Witness of C13: `Get("z")` in the cache holding `"b"` and `"a"`. -/
theorem C13_get_miss_changes_nothing_witness :
    scenarioAB.wf ∧ "z" ∉ scenarioAB.keys ∧ scenarioAB.Get "z" = (scenarioAB, none, false) :=
  ⟨by decide, by decide, C13_get_miss_changes_nothing scenarioAB "z" (by decide) (by decide)⟩

/-- C14: in a well-formed cache, `Remove` of a stored key returns `true`,
unlinks the element of this key and no other, deletes the key from the index
and no other, so that `Len()` is one less and the `Get(key)` that follows
misses, subtracts `len(key) + value.Len()` of the removed entry from `nbbytes`
(in `int64` arithmetic, and exactly when the difference does not overflow),
and calls `OnEvicted` once, with the removed key and value, when it is set. -/
theorem C14_remove_stored_key (c : Cache) (key : String) (hw : c.wf) (hk : key ∈ c.keys) :
    ∃ ele ∈ c.ll, ele.Value.key = key ∧
      (c.Remove key).2 = true ∧
      (c.Remove key).1.ll = c.ll.filter (fun e => decide (e.Value.key ≠ key)) ∧
      (∀ k, mapGet (c.Remove key).1.cache k = if k = key then none else mapGet c.cache k) ∧
      (c.Remove key).1.Len + 1 = c.Len ∧
      (c.Remove key).1.Get key = ((c.Remove key).1, none, false) ∧
      (c.Remove key).1.nbbytes =
        wrap64 (c.nbbytes - (keyLen key + ele.Value.value.Len)) ∧
      (inInt64 (c.nbbytes - (keyLen key + ele.Value.value.Len)) →
        (c.Remove key).1.nbbytes = c.nbbytes - (keyLen key + ele.Value.value.Len)) ∧
      (c.OnEvicted = true →
        (c.Remove key).1.evictedCalls = c.evictedCalls ++ [(key, ele.Value.value)]) ∧
      (c.OnEvicted = false → (c.Remove key).1.evictedCalls = c.evictedCalls) := by
  obtain ⟨ele, hl⟩ := (mem_keys_iff_lookup hw key).1 hk
  obtain ⟨hmem, hkey, _⟩ := lookup_some hw hl
  have hrem : c.Remove key = (c.evict ele, true) := by
    unfold Cache.Remove
    rw [hl]
  have hnb : (c.evict ele).nbbytes = wrap64 (c.nbbytes - (keyLen key + ele.Value.value.Len)) := by
    rw [evict_nbbytes, hkey]
  have hll : (c.evict ele).ll = c.ll.filter (fun e => decide (e.Value.key ≠ key)) := by
    show listRemove c.ll ele.addr = _
    rw [listRemove_eq_filter_key hw hmem, hkey]
  refine ⟨ele, hmem, hkey, ?_, ?_, ?_, ?_, ?_, ?_, ?_, ?_, ?_⟩
  · rw [hrem]
  · rw [hrem]
    exact hll
  · intro k
    rw [hrem]
    show mapGet (mapDelete c.cache ele.Value.key) k = _
    rw [mapGet_mapDelete, hkey]
  · rw [hrem]
    have hp := (listRemove_perm hw.1 (findElement_of_mem hw.1 hmem)).length_eq
    rw [List.length_cons] at hp
    exact hp
  · rw [hrem]
    have := lookup_evict (c := c) ele
    rw [hkey] at this
    unfold Cache.Get
    rw [this]
  · rw [hrem]
    exact hnb
  · intro hr
    rw [hrem]
    show (c.evict ele).nbbytes = _
    rw [hnb]
    exact wrap64_of_range hr.1 hr.2
  · intro ho
    rw [hrem]
    show (if c.OnEvicted then c.evictedCalls ++ [(ele.Value.key, ele.Value.value)]
      else c.evictedCalls) = _
    rw [if_pos ho, hkey]
  · intro ho
    rw [hrem]
    show (if c.OnEvicted then c.evictedCalls ++ [(ele.Value.key, ele.Value.value)]
      else c.evictedCalls) = _
    rw [ho]
    rfl

/-- Witness of C14: `Remove("b")` in the cache holding `"b"` and `"a"`, with a
callback. -/
theorem C14_remove_stored_key_witness :
    scenarioLogged.Remove "b" = (scenarioRemoved, true) ∧
    scenarioRemoved.nbbytes = scenarioLogged.nbbytes - 71 ∧
    scenarioRemoved.evictedCalls = [("b", ⟨0, 70⟩)] ∧
    ∃ ele ∈ scenarioLogged.ll, ele.Value.key = "b" ∧
      (scenarioLogged.Remove "b").2 = true ∧
      (scenarioLogged.Remove "b").1.ll =
        scenarioLogged.ll.filter (fun e => decide (e.Value.key ≠ "b")) ∧
      (∀ k, mapGet (scenarioLogged.Remove "b").1.cache k =
        if k = "b" then none else mapGet scenarioLogged.cache k) ∧
      (scenarioLogged.Remove "b").1.Len + 1 = scenarioLogged.Len ∧
      (scenarioLogged.Remove "b").1.Get "b" = ((scenarioLogged.Remove "b").1, none, false) ∧
      (scenarioLogged.Remove "b").1.nbbytes =
        wrap64 (scenarioLogged.nbbytes - (keyLen "b" + ele.Value.value.Len)) ∧
      (inInt64 (scenarioLogged.nbbytes - (keyLen "b" + ele.Value.value.Len)) →
        (scenarioLogged.Remove "b").1.nbbytes =
          scenarioLogged.nbbytes - (keyLen "b" + ele.Value.value.Len)) ∧
      (scenarioLogged.OnEvicted = true →
        (scenarioLogged.Remove "b").1.evictedCalls =
          scenarioLogged.evictedCalls ++ [("b", ele.Value.value)]) ∧
      (scenarioLogged.OnEvicted = false →
        (scenarioLogged.Remove "b").1.evictedCalls = scenarioLogged.evictedCalls) :=
  ⟨by decide, by decide, by decide,
    C14_remove_stored_key scenarioLogged "b" (by decide) (by decide)⟩

/-- C15: `Remove` returns `true` in every state and for every key; when the key
is not stored (in a well-formed cache, so in particular in a new one) the
state after the call is the state before it: `nbbytes`, `Len()`, the list, the
index and the calls made to `OnEvicted` are the same. -/
theorem C15_remove_returns_true (c : Cache) (key : String) :
    (c.Remove key).2 = true ∧
    (c.wf → key ∉ c.keys → c.Remove key = (c, true)) ∧
    (∀ (maxBytes : Int) (threshold : Rat) (onEvicted : Bool),
      (New maxBytes threshold onEvicted).Remove key =
        (New maxBytes threshold onEvicted, true)) := by
  refine ⟨?_, ?_, ?_⟩
  · unfold Cache.Remove
    cases c.lookup key <;> rfl
  · intro hw hk
    have hl : c.lookup key = none := by
      cases hl : c.lookup key with
      | none => rfl
      | some ele => exact absurd ((mem_keys_iff_lookup hw key).2 ⟨ele, hl⟩) hk
    unfold Cache.Remove
    rw [hl]
  · intro maxBytes threshold onEvicted
    rfl

/-- Witness of C15: `Remove("missing")` on a new cache, and `Remove("z")` in the
cache holding `"b"` and `"a"`. -/
theorem C15_remove_returns_true_witness :
    (New 100 (mkRat 4 5) true).Remove "missing" = (New 100 (mkRat 4 5) true, true) ∧
    scenarioLogged.wf ∧ "z" ∉ scenarioLogged.keys ∧
    scenarioLogged.Remove "z" = (scenarioLogged, true) :=
  ⟨(C15_remove_returns_true (New 100 (mkRat 4 5) true) "missing").2.2 100 (mkRat 4 5) true,
    by decide, by decide,
    (C15_remove_returns_true scenarioLogged "z").2.1 (by decide) (by decide)⟩

/-- C16: in a well-formed cache whose list is `l` followed by the element `e`,
`RemoveOldest` leaves the list `l`, deletes the key of `e` from the index and
no other, subtracts `len(key) + value.Len()` of `e` from `nbbytes` (in `int64`
arithmetic, and exactly when the difference does not overflow) and calls
`OnEvicted` once with the key and value of `e` when it is set; on an empty
cache `RemoveOldest` changes nothing. -/
theorem C16_removeOldest_evicts_back (c : Cache) :
    (∀ (l : List Element) (e : Element), c.wf → c.ll = l ++ [e] →
      c.RemoveOldest.ll = l ∧
      (∀ k, mapGet c.RemoveOldest.cache k =
        if k = e.Value.key then none else mapGet c.cache k) ∧
      c.RemoveOldest.Len + 1 = c.Len ∧
      c.RemoveOldest.nbbytes =
        wrap64 (c.nbbytes - (keyLen e.Value.key + e.Value.value.Len)) ∧
      (inInt64 (c.nbbytes - (keyLen e.Value.key + e.Value.value.Len)) →
        c.RemoveOldest.nbbytes = c.nbbytes - (keyLen e.Value.key + e.Value.value.Len)) ∧
      (c.OnEvicted = true →
        c.RemoveOldest.evictedCalls = c.evictedCalls ++ [(e.Value.key, e.Value.value)]) ∧
      (c.OnEvicted = false → c.RemoveOldest.evictedCalls = c.evictedCalls)) ∧
    (c.ll = [] → c.RemoveOldest = c) := by
  refine ⟨?_, ?_⟩
  · intro l e hw hll
    have hg : c.ll.getLast? = some e := by rw [hll]; simp
    have hro : c.RemoveOldest = c.evict e := by
      unfold Cache.RemoveOldest
      rw [hg]
    have hA := hw.1
    rw [hll] at hA
    have hl : (c.evict e).ll = l := by
      show listRemove c.ll e.addr = l
      rw [hll, listRemove_last hA]
    refine ⟨?_, ?_, ?_, ?_, ?_, ?_, ?_⟩
    · rw [hro, hl]
    · intro k
      rw [hro]
      show mapGet (mapDelete c.cache e.Value.key) k = _
      rw [mapGet_mapDelete]
    · rw [hro]
      unfold Cache.Len
      rw [hl, hll, List.length_append, List.length_singleton]
    · rw [hro]
      exact evict_nbbytes c e
    · intro hr
      rw [hro, evict_nbbytes]
      exact wrap64_of_range hr.1 hr.2
    · intro ho
      rw [hro]
      show (if c.OnEvicted then c.evictedCalls ++ [(e.Value.key, e.Value.value)]
        else c.evictedCalls) = _
      rw [if_pos ho]
    · intro ho
      rw [hro]
      show (if c.OnEvicted then c.evictedCalls ++ [(e.Value.key, e.Value.value)]
        else c.evictedCalls) = _
      rw [ho]
      rfl
  · intro hll
    have hg : c.ll.getLast? = none := by rw [hll]; rfl
    unfold Cache.RemoveOldest
    rw [hg]

/-- Witness of C16: `RemoveOldest()` in the cache holding `"b"` and `"a"`, with a
callback, and on a new cache. -/
theorem C16_removeOldest_evicts_back_witness :
    scenarioLogged.RemoveOldest = scenarioOldest ∧
    scenarioOldest.nbbytes = scenarioLogged.nbbytes - 11 ∧
    scenarioOldest.evictedCalls = [("a", ⟨0, 10⟩)] ∧
    (New 100 (mkRat 4 5) true).RemoveOldest = New 100 (mkRat 4 5) true ∧
    scenarioLogged.RemoveOldest.ll = [⟨1, "b", ⟨0, 70⟩⟩] ∧
    scenarioLogged.RemoveOldest.Len + 1 = scenarioLogged.Len :=
  ⟨by decide,
    by decide, by decide,
    (C16_removeOldest_evicts_back (New 100 (mkRat 4 5) true)).2 rfl,
    ((C16_removeOldest_evicts_back scenarioLogged).1 [⟨1, "b", ⟨0, 70⟩⟩] ⟨0, "a", ⟨0, 10⟩⟩
      (by decide) (by decide)).1,
    ((C16_removeOldest_evicts_back scenarioLogged).1 [⟨1, "b", ⟨0, 70⟩⟩] ⟨0, "a", ⟨0, 10⟩⟩
      (by decide) (by decide)).2.2.1⟩

/-- C17: in a cache with `maxBytes = 0`, whatever the threshold, every `Set`
returns `true` for every bound on the loop, stores the entry (the `Get` that
follows finds the value) and evicts nothing: no call to `OnEvicted` is made
and, in a well-formed cache, the list is the new entry followed by the former
entries of the other keys, so every key stored before is still stored and a
new key makes `Len()` one more. -/
theorem C17_unbounded_set_always_stores (c : Cache) (key : String) (value : Value)
    (h0 : c.maxBytes = 0) :
    (∀ fuel : Nat, c.Set fuel key value = some ((c.store key value).1, true)) ∧
    (c.store key value).1.maxBytes = 0 ∧
    ((c.store key value).1.Get key).2 = (some value, true) ∧
    (c.store key value).1.evictedCalls = c.evictedCalls ∧
    (c.wf →
      (c.store key value).1.entries =
        ⟨key, value⟩ :: c.entries.filter (fun en => decide (en.key ≠ key)) ∧
      (∀ k ∈ c.keys, k ∈ (c.store key value).1.keys) ∧
      (key ∉ c.keys → (c.store key value).1.Len = c.Len + 1)) := by
  have hs : (c.store key value).2 = true := by
    cases hb : (c.store key value).2 with
    | true => rfl
    | false => exact absurd h0 ((store_snd c key value).1 hb).1
  have hm : (c.store key value).1.maxBytes = 0 := by
    rw [(store_frame c key value).1, h0]
  refine ⟨?_, hm, Get_after_store hs, (store_frame c key value).2.2.2, ?_⟩
  · intro fuel
    rw [Set_eq, if_neg (by rw [hs]; simp), if_neg (fun h => h.1 hm)]
  · intro hw
    obtain ⟨a, hll⟩ := store_ll hw hs
    refine ⟨?_, ?_, (store_Len hw hs).2⟩
    · unfold Cache.entries
      rw [hll, List.map_cons, entries_filter]
    · intro k hk
      rw [store_keys hw]
      exact Or.inl hk

/-- Witness of C17: `Set("a", 1000 bytes)` on `New(0, 0.8, nil)`. -/
theorem C17_unbounded_set_always_stores_witness :
    (New 0 (mkRat 4 5) false).maxBytes = 0 ∧
    ((New 0 (mkRat 4 5) false).store "a" ⟨0, 1000⟩).1 = scenarioUnbounded ∧
    ∀ fuel : Nat, (New 0 (mkRat 4 5) false).Set fuel "a" ⟨0, 1000⟩ =
      some (((New 0 (mkRat 4 5) false).store "a" ⟨0, 1000⟩).1, true) :=
  ⟨rfl, by decide,
    (C17_unbounded_set_always_stores (New 0 (mkRat 4 5) false) "a" ⟨0, 1000⟩ rfl).1⟩

/-! ## The counter and the true footprint -/

theorem trueBytes_cons (e : Element) (l : List Element) :
    trueBytes (e :: l) = keyLen e.Value.key + e.Value.value.Len + trueBytes l := by
  unfold trueBytes
  rw [List.map_cons, List.sum_cons]

theorem trueBytes_perm {l1 l2 : List Element} (h : l1.Perm l2) :
    trueBytes l1 = trueBytes l2 :=
  (h.map _).sum_eq

theorem keyLen_nonneg (key : String) : 0 ≤ keyLen key :=
  Int.ofNat_nonneg _

/-- Unlinking an element takes its bytes off the true footprint. -/
theorem trueBytes_listRemove {c : Cache} (hw : c.wf) {ele : Element} (he : ele ∈ c.ll) :
    trueBytes (listRemove c.ll ele.addr) =
      trueBytes c.ll - (keyLen ele.Value.key + ele.Value.value.Len) := by
  have := trueBytes_perm (listRemove_perm hw.1 (findElement_of_mem hw.1 he))
  rw [trueBytes_cons] at this
  omega

/-- An accepted write adds the delta to the true footprint. -/
theorem store_trueBytes {c : Cache} (hw : c.wf) {key : String} {value : Value}
    (h : (c.store key value).2 = true) :
    trueBytes (c.store key value).1.ll = trueBytes c.ll + delta c key value := by
  obtain ⟨a, hll⟩ := store_ll hw h
  rw [hll, trueBytes_cons]
  unfold delta
  cases hl : c.lookup key with
  | some ele =>
    obtain ⟨hmem, hkey, _⟩ := lookup_some hw hl
    have h1 := trueBytes_listRemove hw hmem
    rw [listRemove_eq_filter_key hw hmem, hkey] at h1
    dsimp only
    rw [h1]
    omega
  | none =>
    have hk : key ∉ c.keys := lookup_none hw hl
    have : c.ll.filter (fun e => decide (e.Value.key ≠ key)) = c.ll := by
      rw [List.filter_eq_self]
      intro e he
      have : e.Value.key ≠ key := fun h => hk (h ▸ List.mem_map_of_mem (fun e => e.Value.key) he)
      simpa using this
    rw [this]
    dsimp only
    omega

theorem store_rejected_ll {c : Cache} {key : String} {value : Value}
    (h : (c.store key value).2 = false) : (c.store key value).1.ll = c.ll := by
  rw [store_rejected h]

theorem wrap64_wrap64_add (x y : Int) : wrap64 (wrap64 x + y) = wrap64 (x + y) :=
  wrap64_congr ((wrap64_modEq x).add_right y)

theorem wrap64_wrap64_sub (x y : Int) : wrap64 (wrap64 x - y) = wrap64 (x - y) :=
  wrap64_congr ((wrap64_modEq x).sub_right y)

theorem wrap64_idem (x : Int) : wrap64 (wrap64 x) = wrap64 x :=
  wrap64_congr (wrap64_modEq x)

/-- The conversion `int64(threshold)` of a threshold in `(0, 1]` is `0` or `1`. -/
theorem int64OfFloat_fraction {t : Rat} (h0 : 0 < t) (h1 : t ≤ 1) :
    int64OfFloat t = 0 ∨ int64OfFloat t = 1 := by
  unfold int64OfFloat
  have hn : 0 ≤ t.num := (Rat.num_nonneg).2 h0.le
  rw [Int.tdiv_eq_ediv hn (by positivity)]
  have hf : ⌊t⌋ = t.num / (t.den : Int) := Rat.floor_def' t
  rw [← hf]
  have a : 0 ≤ ⌊t⌋ := Int.floor_nonneg.2 h0.le
  have b : ⌊t⌋ ≤ 1 := by
    have h2 : (⌊t⌋ : ℚ) ≤ 1 := (Int.floor_le t).trans h1
    exact_mod_cast h2
  omega

/-- With `maxBytes > 0` and a threshold in `(0, 1]` the loop condition of `Set`
is false after every write. -/
theorem loop_condition_false {c : Cache} (key : String) (value : Value)
    (hm : 0 < c.maxBytes) (h0 : 0 < c.threshold) (h1 : c.threshold ≤ 1) :
    (c.store key value).2 = true →
      ¬((c.store key value).1.maxBytes ≠ 0 ∧
        (c.store key value).1.maxBytes < (c.store key value).1.thresholdValue) := by
  intro hs hg
  have hmb : (c.store key value).1.maxBytes = c.maxBytes := (store_frame c key value).1
  have hth : (c.store key value).1.threshold = c.threshold := (store_frame c key value).2.1
  have hnb := store_nbbytes c key value
  have hacc : ¬(c.maxBytes ≠ 0 ∧ wrap64 (c.nbbytes + delta c key value) ≥ c.maxBytes) := by
    intro hc
    have := (store_snd c key value).2 hc
    rw [hs] at this
    cases this
  have hlt : wrap64 (c.nbbytes + delta c key value) < c.maxBytes := by
    by_contra hge
    exact hacc ⟨ne_of_gt hm, not_lt.1 hge⟩
  have htv := hg.2
  unfold Cache.thresholdValue at htv
  rw [hmb, hth, hnb] at htv
  rcases int64OfFloat_fraction h0 h1 with hz | ho
  · rw [hz, mul_zero] at htv
    have : wrap64 0 = 0 := by decide
    rw [this] at htv
    omega
  · rw [ho, mul_one, wrap64_idem] at htv
    omega

/-! ## Claims C18 to C20 -/

/-- The invariant behind C18: the stored values have a non-negative `Len()`, the
counter is at least the true footprint, and the true footprint is below
`maxBytes`. -/
theorem exact_invariant {c : Cache} (h : ReachableExact c) :
    c.wf ∧ 0 < c.maxBytes ∧ (∀ e ∈ c.ll, 0 ≤ e.Value.value.Len) ∧
      trueBytes c.ll ≤ c.nbbytes ∧ trueBytes c.ll < c.maxBytes := by
  induction h with
  | new maxBytes threshold onEvicted hm =>
    refine ⟨wf_New _ _ _, hm, ?_, ?_, ?_⟩
    · intro e he; cases he
    · show (0 : Int) ≤ 0
      exact le_refl _
    · exact hm
  | step c c1 fuel op _ hnn hs hex ih =>
    obtain ⟨hw, hm, hv, hle, hlt⟩ := ih
    have evict_case : ∀ ele ∈ c.ll,
        (c.evict ele).nbbytes = c.nbbytes - (keyLen ele.Value.key + ele.Value.value.Len) →
        (c.evict ele).wf ∧ 0 < (c.evict ele).maxBytes ∧
          (∀ e ∈ (c.evict ele).ll, 0 ≤ e.Value.value.Len) ∧
          trueBytes (c.evict ele).ll ≤ (c.evict ele).nbbytes ∧
          trueBytes (c.evict ele).ll < (c.evict ele).maxBytes := by
      intro ele he hx
      have htb : trueBytes (c.evict ele).ll =
          trueBytes c.ll - (keyLen ele.Value.key + ele.Value.value.Len) :=
        trueBytes_listRemove hw he
      have h1 := keyLen_nonneg ele.Value.key
      have h2 := hv ele he
      have hmb : (c.evict ele).maxBytes = c.maxBytes := rfl
      refine ⟨wf_evict hw he, hm, ?_, ?_, ?_⟩
      · intro e hin
        exact hv e ((List.filter_sublist _).subset hin)
      · rw [htb, hx]
        omega
      · rw [htb, hmb]
        omega
    cases op with
    | Get key =>
      simp only [Cache.step, Option.some.injEq] at hs
      subst hs
      unfold Cache.Get
      cases hl : c.lookup key with
      | none => exact ⟨hw, hm, hv, hle, hlt⟩
      | some ele =>
        have hp : (MoveToFront c.ll ele.addr).Perm c.ll := MoveToFront_perm hw.1
        refine ⟨wf_congr hw (hp.map _) rfl rfl, hm, ?_, ?_, ?_⟩
        · intro e he
          exact hv e (hp.mem_iff.1 he)
        · show trueBytes (MoveToFront c.ll ele.addr) ≤ c.nbbytes
          rw [trueBytes_perm hp]
          exact hle
        · show trueBytes (MoveToFront c.ll ele.addr) < c.maxBytes
          rw [trueBytes_perm hp]
          exact hlt
    | Set key value =>
      simp only [Cache.step] at hs
      cases hS : c.Set fuel key value with
      | none => rw [hS] at hs; cases hs
      | some r =>
        obtain ⟨c2, ok⟩ := r
        rw [hS] at hs
        cases hs
        obtain ⟨e1, e2, _⟩ := Set_some hS
        have hval : 0 ≤ value.Len := by simpa [Op.nonneg] using hnn
        have hx : c1.nbbytes = c.nbbytes + delta c key value := hex
        have hmb : c1.maxBytes = c.maxBytes := by
          rw [e1]; exact (store_frame c key value).1
        have hw1 : c1.wf := wf_Set hw hS
        cases ok with
        | false =>
          have hrej : (c.store key value).2 = false := e2.symm
          have hll : c1.ll = c.ll := by rw [e1]; exact store_rejected_ll hrej
          have hge := ((store_snd c key value).1 hrej).2
          rw [← store_nbbytes, ← e1] at hge
          refine ⟨hw1, by rw [hmb]; exact hm, by rw [hll]; exact hv, ?_, ?_⟩
          · rw [hll]
            have : c.maxBytes ≤ c1.nbbytes := hge
            omega
          · rw [hll, hmb]
            exact hlt
        | true =>
          have hacc : (c.store key value).2 = true := e2.symm
          have htb : trueBytes c1.ll = trueBytes c.ll + delta c key value := by
            rw [e1]; exact store_trueBytes hw hacc
          have hlt1 : c1.nbbytes < c1.maxBytes := by
            by_contra hge
            have := (store_snd c key value).2
              ⟨ne_of_gt hm, by
                rw [← store_nbbytes, ← e1, ← hmb]
                exact not_lt.1 hge⟩
            rw [hacc] at this
            cases this
          obtain ⟨a, hsl⟩ := store_ll hw hacc
          refine ⟨hw1, by rw [hmb]; exact hm, ?_, ?_, ?_⟩
          · intro e he
            rw [e1, hsl] at he
            rcases List.mem_cons.1 he with rfl | he
            · exact hval
            · exact hv e ((List.filter_sublist _).subset he)
          · rw [htb, hx]
            omega
          · rw [htb]
            rw [hx] at hlt1
            omega
    | Remove key =>
      simp only [Cache.step, Option.some.injEq] at hs
      subst hs
      simp only [Cache.exactCounter] at hex
      revert hex
      unfold Cache.Remove
      cases hl : c.lookup key with
      | none => intro _; exact ⟨hw, hm, hv, hle, hlt⟩
      | some ele =>
        intro hex
        exact evict_case ele (lookup_some hw hl).1 hex
    | RemoveOldest =>
      simp only [Cache.step, Option.some.injEq] at hs
      subst hs
      simp only [Cache.exactCounter] at hex
      revert hex
      unfold Cache.RemoveOldest
      cases hl : c.ll.getLast? with
      | none => intro _; exact ⟨hw, hm, hv, hle, hlt⟩
      | some ele =>
        intro hex
        exact evict_case ele (List.mem_of_getLast?_eq_some hl) hex

/-- C18: in every state reached from a `New` with `maxBytes > 0` by calls that
return, pass values of non-negative `Len()` and do not overflow, `nbbytes` is
not below the true sum of `len(key) + value.Len()` over the stored entries,
and this sum is below `maxBytes`. -/
theorem C18_counter_bounds_true_footprint (c : Cache) (h : ReachableExact c) :
    trueBytes c.ll ≤ c.nbbytes ∧ trueBytes c.ll < c.maxBytes ∧ 0 < c.maxBytes :=
  ⟨(exact_invariant h).2.2.2.1, (exact_invariant h).2.2.2.2, (exact_invariant h).2.1⟩

/-- Witness of C18: the cache after `Set("a", 10 bytes)`, `Set("b", 70 bytes)`
and the rejected `Set("c", 20 bytes)`, where the counter is `103` and the true
sum is `82`. -/
theorem C18_counter_bounds_true_footprint_witness :
    ReachableExact scenarioABc ∧ trueBytes scenarioABc.ll = 82 ∧ scenarioABc.nbbytes = 103 ∧
    (trueBytes scenarioABc.ll ≤ scenarioABc.nbbytes ∧
      trueBytes scenarioABc.ll < scenarioABc.maxBytes ∧ 0 < scenarioABc.maxBytes) :=
  ⟨ReachableExact.step scenarioAB scenarioABc 0 (Op.Set "c" ⟨0, 20⟩)
      (ReachableExact.step scenarioA scenarioAB 0 (Op.Set "b" ⟨0, 70⟩)
        (ReachableExact.step (New 100 (mkRat 4 5) false) scenarioA 0 (Op.Set "a" ⟨0, 10⟩)
          (ReachableExact.new 100 (mkRat 4 5) false (by decide))
          (by decide) (by decide) (by decide))
        (by decide) (by decide) (by decide))
      (by decide) (by decide) (by decide),
    by decide, by decide,
    C18_counter_bounds_true_footprint scenarioABc
      (ReachableExact.step scenarioAB scenarioABc 0 (Op.Set "c" ⟨0, 20⟩)
        (ReachableExact.step scenarioA scenarioAB 0 (Op.Set "b" ⟨0, 70⟩)
          (ReachableExact.step (New 100 (mkRat 4 5) false) scenarioA 0 (Op.Set "a" ⟨0, 10⟩)
            (ReachableExact.new 100 (mkRat 4 5) false (by decide))
            (by decide) (by decide) (by decide))
          (by decide) (by decide) (by decide))
        (by decide) (by decide) (by decide))⟩

/-- C19: in a cache with `maxBytes > 0` and a threshold in `(0, 1]`, every `Set`
returns for every bound on the loop, with the state and the result of its
update or insertion: `int64(threshold)` is `0` or `1`, so the loop condition
`maxBytes < nbbytes * int64(threshold)` is false after every accepted write,
`RemoveOldest` is not called, no call to `OnEvicted` is made and, in a
well-formed cache, every key stored before the call is stored after it. -/
theorem C19_fraction_threshold_never_evicts (c : Cache) (key : String) (value : Value)
    (hm : 0 < c.maxBytes) (h0 : 0 < c.threshold) (h1 : c.threshold ≤ 1) :
    (∀ fuel : Nat,
      c.Set fuel key value = some ((c.store key value).1, (c.store key value).2)) ∧
    (int64OfFloat c.threshold = 0 ∨ int64OfFloat c.threshold = 1) ∧
    ((c.store key value).2 = true →
      ¬((c.store key value).1.maxBytes ≠ 0 ∧
        (c.store key value).1.maxBytes < (c.store key value).1.thresholdValue)) ∧
    (c.store key value).1.evictedCalls = c.evictedCalls ∧
    (c.wf → ∀ k ∈ c.keys, k ∈ (c.store key value).1.keys) := by
  refine ⟨?_, int64OfFloat_fraction h0 h1, loop_condition_false key value hm h0 h1,
    (store_frame c key value).2.2.2, ?_⟩
  · intro fuel
    rw [Set_eq]
    cases hb : (c.store key value).2 with
    | false => rw [if_pos rfl]
    | true =>
      rw [if_neg (by simp), if_neg (loop_condition_false key value hm h0 h1 hb)]
  · intro hw k hk
    rw [store_keys hw]
    exact Or.inl hk

/-- Witness of C19: with threshold `0.8`, the accepted `Set("b", 70 bytes)` and
the rejected `Set("c", 20 bytes)` of the scenario. -/
theorem C19_fraction_threshold_never_evicts_witness :
    int64OfFloat (mkRat 4 5) = 0 ∧
    (scenarioA.store "b" ⟨0, 70⟩) = (scenarioAB, true) ∧
    (∀ fuel : Nat, scenarioA.Set fuel "b" ⟨0, 70⟩ =
      some ((scenarioA.store "b" ⟨0, 70⟩).1, (scenarioA.store "b" ⟨0, 70⟩).2)) ∧
    (∀ fuel : Nat, scenarioAB.Set fuel "c" ⟨0, 20⟩ =
      some ((scenarioAB.store "c" ⟨0, 20⟩).1, (scenarioAB.store "c" ⟨0, 20⟩).2)) :=
  ⟨by decide, by decide,
    (C19_fraction_threshold_never_evicts scenarioA "b" ⟨0, 70⟩ (by decide) (by decide)
      (by decide)).1,
    (C19_fraction_threshold_never_evicts scenarioAB "c" ⟨0, 20⟩ (by decide) (by decide)
      (by decide)).1⟩

/-- The invariant behind C20: the counter is the true footprint reduced to
`int64`. -/
theorem accepted_invariant {c : Cache} (h : ReachableAccepted c) :
    c.wf ∧ c.nbbytes = wrap64 (trueBytes c.ll) := by
  induction h with
  | new maxBytes threshold onEvicted =>
    refine ⟨wf_New _ _ _, ?_⟩
    show (0 : Int) = wrap64 0
    decide
  | get c key _ ih =>
    obtain ⟨hw, hn⟩ := ih
    refine ⟨wf_Get hw key, ?_⟩
    unfold Cache.Get
    cases hl : c.lookup key with
    | none => exact hn
    | some ele =>
      show c.nbbytes = wrap64 (trueBytes (MoveToFront c.ll ele.addr))
      rw [trueBytes_perm (MoveToFront_perm hw.1)]
      exact hn
  | set c c1 fuel key value _ hS ih =>
    obtain ⟨hw, hn⟩ := ih
    obtain ⟨e1, e2, _⟩ := Set_some hS
    refine ⟨wf_Set hw hS, ?_⟩
    rw [e1, store_nbbytes, store_trueBytes hw e2.symm, hn, wrap64_wrap64_add]
  | remove c key _ ih =>
    obtain ⟨hw, hn⟩ := ih
    refine ⟨wf_Remove hw key, ?_⟩
    unfold Cache.Remove
    cases hl : c.lookup key with
    | none => exact hn
    | some ele =>
      show (c.evict ele).nbbytes = wrap64 (trueBytes (listRemove c.ll ele.addr))
      rw [evict_nbbytes, trueBytes_listRemove hw (lookup_some hw hl).1, hn, wrap64_wrap64_sub]
  | removeOldest c _ ih =>
    obtain ⟨hw, hn⟩ := ih
    refine ⟨wf_RemoveOldest hw, ?_⟩
    unfold Cache.RemoveOldest
    cases hl : c.ll.getLast? with
    | none => exact hn
    | some ele =>
      show (c.evict ele).nbbytes = wrap64 (trueBytes (listRemove c.ll ele.addr))
      rw [evict_nbbytes, trueBytes_listRemove hw (List.mem_of_getLast?_eq_some hl), hn,
        wrap64_wrap64_sub]

/-- C20: after every call of a sequence of `Get`, `Set`, `Remove` and
`RemoveOldest` calls from `New` in which no `Set` returns `false`, `nbbytes`
is the sum of `len(key) + value.Len()` over the stored entries (the sum
reduced to `int64`, which is the sum itself whenever it is in the `int64`
range); in particular `nbbytes` is `0` whenever the cache is empty. -/
theorem C20_counter_equals_true_footprint (c : Cache) (h : ReachableAccepted c) :
    c.nbbytes = wrap64 (trueBytes c.ll) ∧
    (inInt64 (trueBytes c.ll) → c.nbbytes = trueBytes c.ll) ∧
    (c.ll = [] → c.nbbytes = 0) := by
  obtain ⟨_, hn⟩ := accepted_invariant h
  refine ⟨hn, ?_, ?_⟩
  · intro hr
    rw [hn]
    exact wrap64_of_range hr.1 hr.2
  · intro he
    rw [hn, he]
    decide

/-- Witness of C20: the cache after `Set("a", 10 bytes)`, `Set("b", 70 bytes)`
and `Get("a")`. -/
theorem C20_counter_equals_true_footprint_witness :
    ReachableAccepted (scenarioAB.Get "a").1 ∧
    (scenarioAB.Get "a").1.nbbytes = 82 ∧ trueBytes (scenarioAB.Get "a").1.ll = 82 ∧
    ((scenarioAB.Get "a").1.nbbytes = wrap64 (trueBytes (scenarioAB.Get "a").1.ll) ∧
      (inInt64 (trueBytes (scenarioAB.Get "a").1.ll) →
        (scenarioAB.Get "a").1.nbbytes = trueBytes (scenarioAB.Get "a").1.ll) ∧
      ((scenarioAB.Get "a").1.ll = [] → (scenarioAB.Get "a").1.nbbytes = 0)) :=
  ⟨ReachableAccepted.get scenarioAB "a"
      (ReachableAccepted.set scenarioA scenarioAB 0 "b" ⟨0, 70⟩
        (ReachableAccepted.set (New 100 (mkRat 4 5) false) scenarioA 0 "a" ⟨0, 10⟩
          (ReachableAccepted.new 100 (mkRat 4 5) false) (by decide))
        (by decide)),
    by decide, by decide,
    C20_counter_equals_true_footprint (scenarioAB.Get "a").1
      (ReachableAccepted.get scenarioAB "a"
        (ReachableAccepted.set scenarioA scenarioAB 0 "b" ⟨0, 70⟩
          (ReachableAccepted.set (New 100 (mkRat 4 5) false) scenarioA 0 "a" ⟨0, 10⟩
            (ReachableAccepted.new 100 (mkRat 4 5) false) (by decide))
          (by decide)))⟩

end algorithm
